import Mathlib

/-!
Verification development for kmer-cnt-go (`kmer_count.go`).

A shallow embedding of the pipeline stages of `src/kmer_count.go`:
`seqLineReader`, `splitNs`, `makeKmers`, `countKmers` and `printHist`.

Conventions of the embedding:
* a Go `string` is the list of its bytes (`List Nat`, each below 256);
* `uint64` values are naturals below `2 ^ 64`, with the wrap-around written out where an
  operation can leave that range; Go `int` values are integers;
* a channel worker is the function from the list of values it receives to the list of values
  it sends, in order; `none` stands for a run-time fault (index or slice out of range);
* a `map[uint64]int` is a finite map with distinct keys.
-/

/-- The bytes of a text of single-byte characters. -/
def ascii (s : String) : List Nat := s.data.map Char.toNat

/-- Go conversion `uint(x)` of an `int` on a 64-bit platform. -/
def toUint (x : Int) : Nat := (x % 2 ^ 64).toNat

/-- Go `x << s` on `uint64`: bits shifted past position 63 are lost, a count of 64 or more gives 0. -/
def shl64 (x s : Nat) : Nat := if 64 ≤ s then 0 else (x <<< s) % 2 ^ 64

/-- Go `x >> s` on `uint64`. -/
def shr64 (x s : Nat) : Nat := if 64 ≤ s then 0 else x >>> s

/-- Go `^x` on `uint64`: xor with the all-ones word. -/
def not64 (x : Nat) : Nat := (2 ^ 64 - 1) ^^^ x

/-- Line 59: `b = ((b >> 1) ^ ((b & 4) >> 2)) & 3` on a byte. -/
def baseCode (b : Nat) : Nat := ((b >>> 1) ^^^ ((b &&& 4) >>> 2)) &&& 3

/-- Go `make([]uint64, n)`: faults on a negative length. -/
def makeSlice (n : Int) : Option (List Nat) :=
  if n < 0 then none else some (List.replicate n.toNat 0)

/-- Go `s[idx] = v`: faults when `idx` is outside `0 ≤ idx < len(s)`. -/
def setIndex (s : List Nat) (idx : Int) (v : Nat) : Option (List Nat) :=
  if 0 ≤ idx ∧ idx < s.length then some (s.set idx.toNat v) else none

/-- Lines 57-74: the loop over the bytes of `seq` still to come, with the index `i`, the two
accumulators and the slice `kmers`; `none` is a fault. -/
def makeKmersLoop (k : Int) (toShift mask : Nat) :
    List Nat → Nat → Nat → Nat → List Nat → Option (List Nat)
  | [], _, _, _, kmers => some kmers
  | b :: rest, i, next, nextRC, kmers =>
    let bb := baseCode b
    let next1 := (shl64 next 2 ||| bb) &&& mask
    let nextRC1 := shr64 nextRC 2 ||| (shl64 (not64 bb) toShift &&& mask)
    if (i : Int) < k - 1 then
      makeKmersLoop k toShift mask rest (i + 1) next1 nextRC1 kmers
    else
      let minKmer := if next1 > nextRC1 then nextRC1 else next1
      match setIndex kmers ((i : Int) - k + 1) minKmer with
      | none => none
      | some kmers1 => makeKmersLoop k toShift mask rest (i + 1) next1 nextRC1 kmers1

/-- Lines 51-74: the batch makeKmers builds for one fragment `seq`. -/
def makeKmersBatch (k : Int) (seq : List Nat) : Option (List Nat) :=
  let toShift := toUint ((k - 1) * 2)
  let mask := shr64 (2 ^ 64 - 1) (toUint (64 - k * 2))
  match makeSlice ((seq.length : Int) - k + 1) with
  | none => none
  | some kmers => makeKmersLoop k toShift mask seq 0 0 0 kmers

/-- Lines 53-78 for the fragments one worker receives: each batch is sent to every channel
of `kmersOut`, in channel order; a send is recorded as (channel, batch). `none` is a fault. -/
def makeKmers {χ : Type} (k : Int) : List (List Nat) → List χ → Option (List (χ × List Nat))
  | [], _ => some []
  | seq :: sequences, kmersOut =>
    match makeKmersBatch k seq with
    | none => none
    | some kmers =>
      match makeKmers k sequences kmersOut with
      | none => none
      | some more => some (kmersOut.map (fun kout => (kout, kmers)) ++ more)

/-- Digit of a base in the base-4 encoding: A=0, C=1, G=2, T=3. -/
def baseDigit (b : Nat) : Nat :=
  if b = 65 then 0 else if b = 67 then 1 else if b = 71 then 2 else 3

/-- Whether a byte is one of 'A', 'C', 'G', 'T'. -/
def isBase (b : Nat) : Bool := b == 65 || b == 67 || b == 71 || b == 84

/-- Base-4 big-endian value of a k-mer, as the sum of `digit(w[i]) * 4^(k-1-i)`. -/
def enc (w : List Nat) : Nat :=
  ((List.range w.length).map (fun i => baseDigit (w.getD i 0) * 4 ^ (w.length - 1 - i))).sum

/-- Complementary base: A<->T, C<->G. -/
def complement (b : Nat) : Nat :=
  if b = 65 then 84 else if b = 84 then 65 else if b = 67 then 71 else if b = 71 then 67 else b

/-- Reverse complement of a k-mer. -/
def revcomp (w : List Nat) : List Nat := w.reverse.map complement

/-- Big-endian base-4 value of a list of digits. -/
def beVal : List Nat → Nat
  | [] => 0
  | d :: ds => d * 4 ^ ds.length + beVal ds

/-- Reverse complement on digit lists. -/
def rcDigits (p : List Nat) : List Nat := p.reverse.map (fun d => 3 - d)

/-- The forward accumulator after the digits `p`. -/
def fwdAcc (k : Nat) (p : List Nat) : Nat := beVal p % 4 ^ k

/-- The reverse-complement accumulator after the digits `p`. -/
def rcAcc (k : Nat) (p : List Nat) : Nat := beVal (rcDigits p) * 4 ^ k / 4 ^ p.length

/-- The code selected after the digits `p` (lines 69-72). -/
def canonAcc (k : Nat) (p : List Nat) : Nat :=
  if fwdAcc k p > rcAcc k p then rcAcc k p else fwdAcc k p

/-- Whether a byte is a UTF-8 continuation byte. -/
def isCont (b : Nat) : Bool := decide (128 ≤ b ∧ b ≤ 191)

/-- Go's decoding of the first UTF-8 character of a non-empty string, as `for i, r := range s`
does it: the code point and the number of bytes it takes; an invalid sequence gives U+FFFD and
width 1. -/
def decodeRune : List Nat → Nat × Nat
  | [] => (65533, 1)
  | b0 :: rest =>
    if b0 < 128 then (b0, 1)
    else if 194 ≤ b0 ∧ b0 ≤ 223 then
      match rest with
      | b1 :: _ =>
        if isCont b1 then (((b0 &&& 31) <<< 6) ||| (b1 &&& 63), 2) else (65533, 1)
      | _ => (65533, 1)
    else if 224 ≤ b0 ∧ b0 ≤ 239 then
      match rest with
      | b1 :: b2 :: _ =>
        if (if b0 = 224 then 160 else 128) ≤ b1 ∧ b1 ≤ (if b0 = 237 then 159 else 191) ∧
            isCont b2 = true then
          (((b0 &&& 15) <<< 12) ||| ((b1 &&& 63) <<< 6) ||| (b2 &&& 63), 3)
        else (65533, 1)
      | _ => (65533, 1)
    else if 240 ≤ b0 ∧ b0 ≤ 244 then
      match rest with
      | b1 :: b2 :: b3 :: _ =>
        if (if b0 = 240 then 144 else 128) ≤ b1 ∧ b1 ≤ (if b0 = 244 then 143 else 191) ∧
            isCont b2 = true ∧ isCont b3 = true then
          (((b0 &&& 7) <<< 18) ||| ((b1 &&& 63) <<< 12) ||| ((b2 &&& 63) <<< 6) ||| (b3 &&& 63), 4)
        else (65533, 1)
      | _ => (65533, 1)
    else (65533, 1)

/-- The (index, rune) pairs of `for i, r := range s` from byte index `i` on, `s` being what is
left of the string; each step consumes at least one byte, so `fuel = len(s)` steps are enough. -/
def rangeStringFrom : Nat → Nat → List Nat → List (Nat × Nat)
  | 0, _, _ => []
  | _ + 1, _, [] => []
  | fuel + 1, i, b :: rest =>
    (i, (decodeRune (b :: rest)).1) ::
      rangeStringFrom fuel (i + (decodeRune (b :: rest)).2) ((b :: rest).drop (decodeRune (b :: rest)).2)

/-- The (index, rune) pairs Go's `for i, r := range line` goes through. -/
def rangeString (line : List Nat) : List (Nat × Nat) := rangeStringFrom line.length 0 line

/-- Go `s[lo:hi]` on a string: faults unless `0 ≤ lo ≤ hi ≤ len(s)`. -/
def sliceStr (s : List Nat) (lo hi : Int) : Option (List Nat) :=
  if 0 ≤ lo ∧ lo ≤ hi ∧ hi ≤ (s.length : Int) then
    some ((s.drop lo.toNat).take (hi.toNat - lo.toNat))
  else none

/-- Lines 29-41 for one line: the loop over the (i, r) pairs still to come with the current
`start`, then the send of the last token; the result is the list of strings sent, `none` a fault.
'A' = 65, 'C' = 67, 'G' = 71, 'T' = 84. -/
def splitLoop (minLength : Int) (line : List Nat) : List (Nat × Nat) → Int → Option (List (List Nat))
  | [], start =>
    if start ≤ (line.length : Int) - minLength then
      match sliceStr line start line.length with
      | none => none
      | some tok => some [tok]
    else some []
  | (i, r) :: more, start =>
    if r ≠ 65 ∧ r ≠ 67 ∧ r ≠ 71 ∧ r ≠ 84 then
      if start ≤ (i : Int) - minLength then
        match sliceStr line start i with
        | none => none
        | some tok =>
          match splitLoop minLength line more ((i : Int) + 1) with
          | none => none
          | some toks => some (tok :: toks)
      else splitLoop minLength line more ((i : Int) + 1)
    else splitLoop minLength line more start

/-- The strings splitNs sends for one line. -/
def splitLine (minLength : Int) (line : List Nat) : Option (List (List Nat)) :=
  splitLoop minLength line (rangeString line) 0

/-- Lines 28-42: the strings one splitNs worker sends for the lines it receives, in order. -/
def splitNs (minLength : Int) : List (List Nat) → Option (List (List Nat))
  | [] => some []
  | line :: lines =>
    match splitLine minLength line with
    | none => none
    | some toks =>
      match splitNs minLength lines with
      | none => none
      | some more => some (toks ++ more)

/-- A Go `map[uint64]int`: a finite map with distinct keys. -/
abbrev CountMap := AList (fun _ : Nat => Int)

/-- Lines 87-95: the loop body of countKmers for one k-mer. -/
def countOne (filter filterMask : Nat) (counts : CountMap) (kmer : Nat) : CountMap :=
  if (kmer &&& filterMask) ≠ filter then counts
  else
    match counts.lookup kmer with
    | some count => counts.insert kmer (count + 1)
    | none => counts.insert kmer 1

/-- Lines 85-97: the map countKmers ends with after the batches received, in order. -/
def countKmers (filter filterMask : Nat) (counts : CountMap) (kmerSequences : List (List Nat)) :
    CountMap :=
  kmerSequences.foldl (fun c kmers => kmers.foldl (countOne filter filterMask) c) counts

/-- Lines 124 and 151-156 of main: counter `i` of `numMaps` runs
`countKmers(uint64(i), uint64(numMaps-1), ...)` on an empty map over the broadcast batches. -/
def shardCounts (numMaps : Nat) (batches : List (List Nat)) : List CountMap :=
  (List.range numMaps).map
    (fun (i : Nat) => countKmers (toUint (i : Int)) (toUint ((numMaps : Int) - 1)) ∅ batches)

/-- Lines 107-110: clamp the count to 255 and increment its bucket; an index outside the
array is a fault. -/
def histAdd (hist : List Int) (count : Int) : Option (List Int) :=
  if 0 ≤ (if count > 255 then 255 else count) ∧
      (if count > 255 then 255 else count) < (hist.length : Int) then
    some (hist.set (if count > 255 then 255 else count).toNat
      (hist.getD (if count > 255 then 255 else count).toNat 0 + 1))
  else none

/-- Lines 106-111: the inner loop over the entries of one map. -/
def histMap (hist : List Int) : List (Sigma fun _ : Nat => Int) → Option (List Int)
  | [] => some hist
  | e :: rest =>
    match histAdd hist e.2 with
    | none => none
    | some hist1 => histMap hist1 rest

/-- Lines 105-112: the outer loop over the maps. -/
def histAll (hist : List Int) : List CountMap → Option (List Int)
  | [] => some hist
  | nextCounts :: rest =>
    match histMap hist nextCounts.entries with
    | none => none
    | some hist1 => histAll hist1 rest

/-- Lines 104-112: the 256-entry array printHist builds. -/
def buildHist (counts : List CountMap) : Option (List Int) :=
  histAll (List.replicate 256 0) counts

/-- Decimal form of a Go `int`, as fmt prints it. -/
def fmtInt : Int → String
  | Int.ofNat n => Nat.repr n
  | Int.negSucc n => "-" ++ Nat.repr (n + 1)

/-- Go's `fmt.Println` on operands already formatted: they are joined by single spaces
(the line terminator is left out). -/
def goPrintln (operands : List String) : String := String.intercalate " " operands

/-- Lines 113-117: the lines printHist writes for an array `hist`, indices counted from `i`. -/
def histLines : Nat → List Int → List String
  | _, [] => []
  | i, count :: rest =>
    if i > 0 then goPrintln [fmtInt i, "\t", fmtInt count] :: histLines (i + 1) rest
    else histLines (i + 1) rest

/-- The lines printHist writes to stdout, `none` when it faults. -/
def printHist (counts : List CountMap) : Option (List String) :=
  match buildHist counts with
  | none => none
  | some hist => some (histLines 0 hist)

/-- ScanLines drops one trailing carriage return from a token. -/
def dropCR (tok : List Nat) : List Nat :=
  if tok.getLast? = some 13 then tok.dropLast else tok

/-- The tokens `bufio.Scanner` yields with the ScanLines split function and a buffer of
`capacity` bytes (Go standard library): the lines of the input without their terminator, until
the input ends or a line does not fit in the buffer, where `Scan` returns false. `cur` is the
part of the current line read so far. -/
def scanLinesFrom (capacity : Nat) : List Nat → List Nat → List (List Nat)
  | [], cur => if cur = [] then [] else if cur.length < capacity then [dropCR cur] else []
  | b :: rest, cur =>
    if b = 10 then
      if cur.length < capacity then dropCR cur :: scanLinesFrom capacity rest [] else []
    else scanLinesFrom capacity rest (cur ++ [b])

/-- Go `s[i]` on a string: faults when `i` is outside `0 ≤ i < len(s)`. -/
def indexStr (s : List Nat) (i : Nat) : Option Nat := s[i]?

/-- Lines 16-21: the loop of seqLineReader over the scanned lines; the lines sent, `none` a
fault. '>' = 62. -/
def forwardLines : List (List Nat) → Option (List (List Nat))
  | [] => some []
  | line :: rest =>
    match indexStr line 0 with
    | none => none
    | some c =>
      match forwardLines rest with
      | none => none
      | some more => some (if c ≠ 62 then line :: more else more)

/-- Lines 12-23: the lines seqLineReader sends before signalling done, from an input stream
scanned with a buffer of `capacity` bytes. -/
def seqLineReaderWith (capacity : Nat) (input : List Nat) : Option (List (List Nat)) :=
  forwardLines (scanLinesFrom capacity input [])

/-- seqLineReader with the capacity of line 14. -/
def seqLineReader (input : List Nat) : Option (List (List Nat)) :=
  seqLineReaderWith (4000 * 1000) input

/-- The maximal contiguous runs of A, C, G, T of a line, left to right: the non-empty pieces
between characters outside the alphabet. -/
def maximalRuns (line : List Nat) : List (List Nat) :=
  (line.splitOnP (fun b => !isBase b)).filter (fun run => decide (run ≠ []))

/-- The maximal runs of length at least `k`. -/
def longRuns (k : Nat) (line : List Nat) : List (List Nat) :=
  (maximalRuns line).filter (fun run => decide (k ≤ run.length))

/-- The sum of the counts stored in a map. -/
def storedTotal (m : CountMap) : Int := (m.entries.map (fun e => e.2)).sum

/-- The number of (map, key) pairs of `counts` whose stored count satisfies `P`. -/
def pairCount (counts : List CountMap) (P : Int → Bool) : Nat :=
  (counts.map (fun m => m.keys.countP (fun key =>
    match m.lookup key with
    | some v => P v
    | none => false))).sum

/-- The total number of keys over all maps. -/
def keyCount (counts : List CountMap) : Nat := (counts.map (fun m => m.keys.length)).sum

/-- The bucket a count falls in: the count clamped to at most 255. -/
def bucketOf (count : Int) : Int := if count > 255 then 255 else count

theorem beVal_append (a b : List Nat) : beVal (a ++ b) = beVal a * 4 ^ b.length + beVal b := by
  induction a with
  | nil => simp [beVal]
  | cons d ds ih =>
    rw [List.cons_append, beVal, beVal, ih, List.length_append, pow_add]; ring

theorem beVal_lt (ds : List Nat) (h : ∀ d ∈ ds, d < 4) : beVal ds < 4 ^ ds.length := by
  induction ds with
  | nil => simp [beVal]
  | cons d ds ih =>
    have hd : d < 4 := h d (List.mem_cons_self _ _)
    have := ih (fun x hx => h x (List.mem_cons_of_mem _ hx))
    simp only [beVal, List.length_cons, pow_succ]
    nlinarith [Nat.pow_pos (n := ds.length) (show 0 < 4 by decide)]

theorem baseCode_lt (b : Nat) : baseCode b < 4 := by
  unfold baseCode
  exact Nat.lt_of_le_of_lt Nat.and_le_right (by decide)

theorem rcDigits_lt (p : List Nat) : ∀ d ∈ rcDigits p, d < 4 := by
  intro d hd
  simp only [rcDigits, List.mem_map] at hd
  obtain ⟨x, _, rfl⟩ := hd
  omega

theorem rcDigits_length (p : List Nat) : (rcDigits p).length = p.length := by
  simp [rcDigits]

theorem rcAcc_lt (k : Nat) (p : List Nat) : rcAcc k p < 4 ^ k := by
  unfold rcAcc
  have h := beVal_lt (rcDigits p) (rcDigits_lt p)
  rw [rcDigits_length] at h
  rw [Nat.div_lt_iff_lt_mul (Nat.pow_pos (by decide))]
  rw [Nat.mul_comm (4 ^ k)]
  exact Nat.mul_lt_mul_of_pos_right h (Nat.pow_pos (by decide))

set_option maxRecDepth 100000 in
theorem mask_bits : ∀ k : Nat, k < 33 → 1 ≤ k →
    shr64 (2 ^ 64 - 1) (toUint (64 - (k : Int) * 2)) = 2 ^ (2 * k) - 1 := by decide

set_option maxRecDepth 100000 in
theorem complement_bits : ∀ k : Nat, k < 33 → ∀ bb : Nat, bb < 4 → 1 ≤ k →
    shl64 (not64 bb) (toUint (((k : Int) - 1) * 2)) &&& shr64 (2 ^ 64 - 1) (toUint (64 - (k : Int) * 2))
      = 2 ^ (2 * (k - 1)) * (3 - bb) := by decide

theorem four_pow (k : Nat) : (4 : Nat) ^ k = 2 ^ (2 * k) := by
  rw [pow_mul]; rfl

theorem fwd_step (k : Nat) (hk1 : 1 ≤ k) (hk2 : k ≤ 32) (p : List Nat) (d : Nat) (hd : d < 4) :
    (shl64 (fwdAcc k p) 2 ||| d) &&& shr64 (2 ^ 64 - 1) (toUint (64 - (k : Int) * 2))
      = fwdAcc k (p ++ [d]) := by
  rw [mask_bits k (by omega) hk1, Nat.and_pow_two_sub_one_eq_mod, ← four_pow]
  have hs : shl64 (fwdAcc k p) 2 = 2 ^ 2 * (fwdAcc k p % 2 ^ 62) := by
    simp only [shl64, Nat.shiftLeft_eq]
    rw [if_neg (by decide), Nat.mul_comm, show (2:Nat) ^ 64 = 2 ^ 2 * 2 ^ 62 by norm_num,
      Nat.mul_mod_mul_left]
  rw [hs, ← Nat.mul_add_lt_is_or (by simpa using hd)]
  unfold fwdAcc
  rw [beVal_append]
  simp only [beVal, List.length_cons, List.length_nil, pow_zero, mul_one, add_zero, zero_add, pow_one]
  have hdvd : 4 ^ k ∣ 2 ^ 64 := by
    rw [four_pow]; exact pow_dvd_pow 2 (by omega)
  have h1 : 2 ^ 2 * (beVal p % 4 ^ k % 2 ^ 62) ≡ 4 * (beVal p % 4 ^ k) [MOD 4 ^ k] := by
    have : 2 ^ 2 * (beVal p % 4 ^ k % 2 ^ 62) = (4 * (beVal p % 4 ^ k)) % 2 ^ 64 := by
      rw [show (2:Nat) ^ 64 = 4 * 2 ^ 62 by norm_num, Nat.mul_mod_mul_left]; rfl
    rw [this]
    exact (Nat.mod_modEq _ _).of_dvd hdvd
  have h2 : 4 * (beVal p % 4 ^ k) ≡ 4 * beVal p [MOD 4 ^ k] := (Nat.mod_modEq _ _).mul_left 4
  have h3 := (h1.trans h2).add_right d
  rw [Nat.mul_comm (beVal p) 4]
  exact h3

theorem rc_step (k : Nat) (hk1 : 1 ≤ k) (hk2 : k ≤ 32) (p : List Nat) (d : Nat) (hd : d < 4) :
    shr64 (rcAcc k p) 2 |||
        (shl64 (not64 d) (toUint (((k : Int) - 1) * 2)) &&&
          shr64 (2 ^ 64 - 1) (toUint (64 - (k : Int) * 2)))
      = rcAcc k (p ++ [d]) := by
  rw [complement_bits k (by omega) d hd hk1]
  have hlt := rcAcc_lt k p
  have hk : (4 : Nat) ^ k = 4 ^ (k - 1) * 4 := by
    rw [← pow_succ]; congr 1; omega
  have hsr : shr64 (rcAcc k p) 2 = rcAcc k p / 4 := by
    simp only [shr64, Nat.shiftRight_eq_div_pow]
    rw [if_neg (by decide)]
  have hq : rcAcc k p / 4 < 2 ^ (2 * (k - 1)) := by
    rw [← four_pow, Nat.div_lt_iff_lt_mul (by decide)]; omega
  rw [hsr, Nat.lor_comm, ← Nat.mul_add_lt_is_or hq, ← four_pow]
  unfold rcAcc
  have hr : rcDigits (p ++ [d]) = (3 - d) :: rcDigits p := by
    simp [rcDigits]
  rw [hr]
  simp only [beVal, rcDigits_length, List.length_append, List.length_cons, List.length_nil]
  rw [Nat.div_div_eq_div_mul, ← pow_succ]
  have : ((3 - d) * 4 ^ p.length + beVal (rcDigits p)) * 4 ^ k
      = beVal (rcDigits p) * 4 ^ k + 4 ^ (k - 1) * (3 - d) * 4 ^ (p.length + 1) := by
    rw [hk, pow_succ]; ring
  rw [this, Nat.add_mul_div_right _ _ (Nat.pow_pos (by decide))]
  ring

theorem makeKmersLoop_spec (k : Nat) (hk1 : 1 ≤ k) (hk2 : k ≤ 32) (seq : List Nat) (n : Nat)
    (hn : n + k = seq.length + 1) :
    ∀ (rest pre kmers : List Nat), seq = pre ++ rest → kmers.length = n →
      (∀ j, j < n → kmers[j]? = some (if j + k ≤ pre.length then
          canonAcc k ((seq.take (j + k)).map baseCode) else 0)) →
      ∃ out, makeKmersLoop (k : Int) (toUint (((k : Int) - 1) * 2))
            (shr64 (2 ^ 64 - 1) (toUint (64 - (k : Int) * 2))) rest pre.length
            (fwdAcc k (pre.map baseCode)) (rcAcc k (pre.map baseCode)) kmers = some out ∧
        out.length = n ∧
        ∀ j, j < n → out[j]? = some (canonAcc k ((seq.take (j + k)).map baseCode)) := by
  intro rest
  induction rest with
  | nil =>
    intro pre kmers hseq hlen hinv
    refine ⟨kmers, rfl, hlen, ?_⟩
    intro j hj
    rw [hinv j hj, if_pos]
    rw [hseq, List.append_nil] at hn
    omega
  | cons b rest ih =>
    intro pre kmers hseq hlen hinv
    have hL : seq.length = pre.length + rest.length + 1 := by
      rw [hseq]; simp; omega
    have hpre : seq = (pre ++ [b]) ++ rest := by rw [hseq]; simp
    have hmap : (pre ++ [b]).map baseCode = pre.map baseCode ++ [baseCode b] := by simp
    have hplen : (pre ++ [b]).length = pre.length + 1 := by simp
    unfold makeKmersLoop
    simp only []
    rw [fwd_step k hk1 hk2 _ _ (baseCode_lt b), rc_step k hk1 hk2 _ _ (baseCode_lt b),
      ← hmap]
    have ih1 := ih (pre ++ [b])
    simp only [hplen] at ih1
    by_cases hlt : ((pre.length : Nat) : Int) < (k : Int) - 1
    · rw [if_pos hlt]
      apply ih1 kmers hpre hlen
      intro j hj
      rw [hinv j hj, if_neg (by omega), if_neg (by omega)]
    · rw [if_neg hlt]
      have hidx : 0 ≤ ((pre.length : Nat) : Int) - (k : Int) + 1 ∧
          ((pre.length : Nat) : Int) - (k : Int) + 1 < (kmers.length : Nat) := by
        omega
      have htn : (((pre.length : Nat) : Int) - (k : Int) + 1).toNat = pre.length + 1 - k := by
        omega
      simp only [setIndex, if_pos hidx, htn]
      apply ih1 _ hpre (by simp [hlen])
      intro j hj
      rw [List.getElem?_set]
      by_cases hj2 : pre.length + 1 - k = j
      · rw [if_pos hj2, if_pos (show pre.length + 1 - k < kmers.length by omega),
          if_pos (show j + k ≤ pre.length + 1 by omega)]
        have : seq.take (j + k) = pre ++ [b] := by
          rw [hpre, List.take_append_eq_append_take]
          have h1 : j + k = (pre ++ [b]).length := by rw [hplen]; omega
          rw [h1]; simp
        rw [this]
        rfl
      · rw [if_neg hj2, hinv j hj]
        by_cases h3 : j + k ≤ pre.length
        · rw [if_pos h3, if_pos (by omega)]
        · rw [if_neg h3, if_neg (by omega)]

theorem canonAcc_window (k : Nat) (a w : List Nat) (hw : w.length = k)
    (hd : ∀ d ∈ w, d < 4) :
    canonAcc k (a ++ w) = min (beVal w) (beVal (rcDigits w)) := by
  have hf : fwdAcc k (a ++ w) = beVal w := by
    unfold fwdAcc
    rw [beVal_append, hw, Nat.add_comm, Nat.add_mul_mod_self_right]
    exact Nat.mod_eq_of_lt (hw ▸ beVal_lt w hd)
  have hr : rcAcc k (a ++ w) = beVal (rcDigits w) := by
    unfold rcAcc
    have h1 : rcDigits (a ++ w) = rcDigits w ++ rcDigits a := by simp [rcDigits]
    rw [h1, beVal_append, rcDigits_length, List.length_append, hw, pow_add,
      Nat.mul_div_mul_right _ _ (Nat.pow_pos (by decide)), Nat.add_comm,
      Nat.add_mul_div_right _ _ (Nat.pow_pos (by decide)),
      Nat.div_eq_of_lt (rcDigits_length a ▸ beVal_lt (rcDigits a) (rcDigits_lt a)), Nat.zero_add]
  unfold canonAcc
  rw [hf, hr]
  by_cases h : beVal w > beVal (rcDigits w)
  · rw [if_pos h]; omega
  · rw [if_neg h]; omega

theorem makeKmersBatch_canon (k : Nat) (hk1 : 1 ≤ k) (hk2 : k ≤ 32) (seq : List Nat)
    (hL : k ≤ seq.length) :
    ∃ batch, makeKmersBatch (k : Int) seq = some batch ∧
      batch.length = seq.length - k + 1 ∧
      ∀ j, j ≤ seq.length - k → batch[j]? =
        some (min (beVal (((seq.drop j).take k).map baseCode))
          (beVal (rcDigits (((seq.drop j).take k).map baseCode)))) := by
  have hn : (seq.length - k + 1) + k = seq.length + 1 := by omega
  have hms : makeSlice ((seq.length : Int) - (k : Int) + 1)
      = some (List.replicate (seq.length - k + 1) 0) := by
    unfold makeSlice
    rw [if_neg (by omega)]
    congr 2
    omega
  obtain ⟨out, ho, hlen, hval⟩ := makeKmersLoop_spec k hk1 hk2 seq _ hn seq []
    (List.replicate (seq.length - k + 1) 0) rfl (by simp) (by
      intro j hj
      rw [if_neg (by simp; omega)]
      simp [hj])
  have hf0 : fwdAcc k (List.map baseCode []) = 0 := by simp [fwdAcc, beVal]
  have hr0 : rcAcc k (List.map baseCode []) = 0 := by simp [rcAcc, rcDigits, beVal]
  rw [hf0, hr0] at ho
  refine ⟨out, ?_, hlen, ?_⟩
  · unfold makeKmersBatch
    simp only [hms]
    exact ho
  · intro j hj
    rw [hval j (by omega)]
    have hsplit : seq.take (j + k) = seq.take j ++ (seq.drop j).take k := by
      rw [List.take_add]
    rw [hsplit, List.map_append,
      canonAcc_window k _ _ (by simp; omega) (by
        intro d hd
        simp only [List.mem_map] at hd
        obtain ⟨b, _, rfl⟩ := hd
        exact baseCode_lt b)]

theorem enc_cons (b : Nat) (w : List Nat) :
    enc (b :: w) = baseDigit b * 4 ^ w.length + enc w := by
  unfold enc
  rw [List.length_cons, List.range_succ_eq_map]
  simp [List.map_map, Function.comp_def, Nat.sub_sub, Nat.add_comm]

theorem enc_eq_beVal (w : List Nat) : enc w = beVal (w.map baseDigit) := by
  induction w with
  | nil => rfl
  | cons b w ih => rw [enc_cons, ih]; simp [beVal]

theorem baseCode_eq_digit (b : Nat) (h : isBase b = true) : baseCode b = baseDigit b := by
  simp only [isBase, Bool.or_eq_true, beq_iff_eq] at h
  rcases h with ((h | h) | h) | h <;> subst h <;> decide

theorem digit_complement (b : Nat) (h : isBase b = true) :
    baseDigit (complement b) = 3 - baseDigit b := by
  simp only [isBase, Bool.or_eq_true, beq_iff_eq] at h
  rcases h with ((h | h) | h) | h <;> subst h <;> decide

theorem complement_isBase (b : Nat) (h : isBase b = true) : isBase (complement b) = true := by
  simp only [isBase, Bool.or_eq_true, beq_iff_eq] at h
  rcases h with ((h | h) | h) | h <;> subst h <;> decide

theorem complement_complement (b : Nat) (h : isBase b = true) : complement (complement b) = b := by
  simp only [isBase, Bool.or_eq_true, beq_iff_eq] at h
  rcases h with ((h | h) | h) | h <;> subst h <;> decide

theorem beVal_code_eq_enc (w : List Nat) (h : ∀ b ∈ w, isBase b = true) :
    beVal (w.map baseCode) = enc w := by
  rw [enc_eq_beVal]
  congr 1
  exact List.map_congr_left (fun b hb => baseCode_eq_digit b (h b hb))

theorem beVal_rc_eq_enc (w : List Nat) (h : ∀ b ∈ w, isBase b = true) :
    beVal (rcDigits (w.map baseCode)) = enc (revcomp w) := by
  rw [enc_eq_beVal]
  congr 1
  unfold rcDigits revcomp
  rw [← List.map_reverse, List.map_map, List.map_map]
  apply List.map_congr_left
  intro b hb
  have hb2 := h b (List.mem_reverse.mp hb)
  simp only [Function.comp]
  rw [digit_complement b hb2, baseCode_eq_digit b hb2]

theorem revcomp_revcomp (w : List Nat) (h : ∀ b ∈ w, isBase b = true) : revcomp (revcomp w) = w := by
  unfold revcomp
  rw [← List.map_reverse, List.reverse_reverse, List.map_map]
  calc List.map (complement ∘ complement) w = List.map id w :=
        List.map_congr_left (fun b hb => complement_complement b (h b hb))
    _ = w := List.map_id w

theorem revcomp_isBase (w : List Nat) (h : ∀ b ∈ w, isBase b = true) :
    ∀ b ∈ revcomp w, isBase b = true := by
  intro b hb
  simp only [revcomp, List.mem_map, List.mem_reverse] at hb
  obtain ⟨x, hx, rfl⟩ := hb
  exact complement_isBase x (h x hx)

/-- C1. For 1 ≤ k ≤ 32 and a string over A, C, G, T of length at least k, the batch built by
makeKmers holds at every window index j the minimum of the base-4 big-endian encoding of the
window and the encoding of its reverse complement, in window order. -/
theorem makeKmers_canonical_codes (k : Nat) (seq : List Nat) (hk1 : 1 ≤ k) (hk2 : k ≤ 32)
    (hseq : ∀ b ∈ seq, isBase b = true) (hL : k ≤ seq.length) :
    ∃ batch, makeKmersBatch (k : Int) seq = some batch ∧
      ∀ j, j ≤ seq.length - k →
        batch[j]? = some (min (enc ((seq.drop j).take k)) (enc (revcomp ((seq.drop j).take k)))) := by
  obtain ⟨batch, hb, _, hv⟩ := makeKmersBatch_canon k hk1 hk2 seq hL
  refine ⟨batch, hb, ?_⟩
  intro j hj
  have hw : ∀ b ∈ (seq.drop j).take k, isBase b = true :=
    fun b hb => hseq b (List.mem_of_mem_drop (List.mem_of_mem_take hb))
  rw [hv j hj, beVal_code_eq_enc _ hw, beVal_rc_eq_enc _ hw]

theorem makeKmers_canonical_codes_witness :
    (1 ≤ 3 ∧ 3 ≤ 32 ∧ (∀ b ∈ ascii "ACGTTTGA", isBase b = true) ∧ 3 ≤ (ascii "ACGTTTGA").length) ∧
    ∃ batch, makeKmersBatch ((3 : Nat) : Int) (ascii "ACGTTTGA") = some batch ∧
      ∀ j, j ≤ (ascii "ACGTTTGA").length - 3 →
        batch[j]? = some (min (enc (((ascii "ACGTTTGA").drop j).take 3))
          (enc (revcomp (((ascii "ACGTTTGA").drop j).take 3)))) :=
  ⟨by decide, makeKmers_canonical_codes 3 (ascii "ACGTTTGA") (by decide) (by decide) (by decide)
    (by decide)⟩

/-- C2. For 1 ≤ k ≤ 32 and a string w over A, C, G, T of length exactly k, makeKmers emits
one code for w and the same single code for the reverse complement of w. -/
theorem makeKmers_revcomp_same_code (k : Nat) (w : List Nat) (hk1 : 1 ≤ k) (hk2 : k ≤ 32)
    (hw : ∀ b ∈ w, isBase b = true) (hL : w.length = k) :
    ∃ c, makeKmersBatch (k : Int) w = some [c] ∧
      makeKmersBatch (k : Int) (revcomp w) = some [c] := by
  have hrl : (revcomp w).length = k := by simp [revcomp, hL]
  obtain ⟨b1, h1, l1, v1⟩ := makeKmersBatch_canon k hk1 hk2 w (by omega)
  obtain ⟨b2, h2, l2, v2⟩ := makeKmersBatch_canon k hk1 hk2 (revcomp w) (by omega)
  have e1 := v1 0 (by omega)
  have e2 := v2 0 (by omega)
  rw [List.drop_zero, List.take_of_length_le (by omega), beVal_code_eq_enc _ hw,
    beVal_rc_eq_enc _ hw] at e1
  rw [List.drop_zero, List.take_of_length_le (by omega),
    beVal_code_eq_enc _ (revcomp_isBase w hw), beVal_rc_eq_enc _ (revcomp_isBase w hw),
    revcomp_revcomp w hw, Nat.min_comm] at e2
  refine ⟨min (enc w) (enc (revcomp w)), ?_, ?_⟩
  · obtain ⟨x, rfl⟩ := List.length_eq_one.mp (show b1.length = 1 by omega)
    rw [h1]
    simpa using e1
  · obtain ⟨x, rfl⟩ := List.length_eq_one.mp (show b2.length = 1 by omega)
    rw [h2]
    simpa using e2

theorem makeKmers_revcomp_same_code_witness :
    (1 ≤ 3 ∧ 3 ≤ 32 ∧ (∀ b ∈ ascii "GTT", isBase b = true) ∧ (ascii "GTT").length = 3) ∧
    ∃ c, makeKmersBatch ((3 : Nat) : Int) (ascii "GTT") = some [c] ∧
      makeKmersBatch ((3 : Nat) : Int) (revcomp (ascii "GTT")) = some [c] :=
  ⟨by decide, makeKmers_revcomp_same_code 3 (ascii "GTT") (by decide) (by decide) (by decide)
    (by decide)⟩

/-- C5. For 1 ≤ k ≤ 32 and a fragment of length L ≥ k, the batch has exactly L-k+1 codes and
that same batch is sent once to every channel of kmersOut; the 32-base line
ACGTACGTACGTACGTACGTACGTACGTACGT with k = 31 gives a batch of exactly 2 codes. -/
theorem makeKmers_batch_length_broadcast {χ : Type} (k : Nat) (seq : List Nat) (kmersOut : List χ)
    (hk1 : 1 ≤ k) (hk2 : k ≤ 32) (hL : k ≤ seq.length) :
    (∃ batch, makeKmersBatch (k : Int) seq = some batch ∧
      batch.length = seq.length - k + 1 ∧
      makeKmers (k : Int) [seq] kmersOut = some (kmersOut.map (fun kout => (kout, batch)))) ∧
    (makeKmersBatch 31 (ascii "ACGTACGTACGTACGTACGTACGTACGTACGT")).map List.length = some 2 := by
  obtain ⟨batch, hb, hl, _⟩ := makeKmersBatch_canon k hk1 hk2 seq hL
  refine ⟨⟨batch, hb, hl, ?_⟩, by decide⟩
  simp [makeKmers, hb]

theorem makeKmers_batch_length_broadcast_witness :
    (1 ≤ 31 ∧ 31 ≤ 32 ∧ 31 ≤ (ascii "ACGTACGTACGTACGTACGTACGTACGTACGT").length) ∧
    ((∃ batch, makeKmersBatch ((31 : Nat) : Int) (ascii "ACGTACGTACGTACGTACGTACGTACGTACGT")
        = some batch ∧
      batch.length = (ascii "ACGTACGTACGTACGTACGTACGTACGTACGT").length - 31 + 1 ∧
      makeKmers ((31 : Nat) : Int) [ascii "ACGTACGTACGTACGTACGTACGTACGTACGT"] (List.range 16)
        = some ((List.range 16).map (fun kout => (kout, batch)))) ∧
    (makeKmersBatch 31 (ascii "ACGTACGTACGTACGTACGTACGTACGTACGT")).map List.length = some 2) :=
  ⟨by decide, makeKmers_batch_length_broadcast 31 (ascii "ACGTACGTACGTACGTACGTACGTACGTACGT")
    (List.range 16) (by decide) (by decide) (by decide)⟩

theorem decodeRune_width (s : List Nat) : 1 ≤ (decodeRune s).2 ∧ (decodeRune s).2 ≤ 4 := by
  unfold decodeRune
  repeat' split
  all_goals simp

theorem rangeStringFrom_fuel : ∀ (n : Nat) (s : List Nat), s.length ≤ n →
    ∀ (fuel1 fuel2 i : Nat), s.length ≤ fuel1 → s.length ≤ fuel2 →
      rangeStringFrom fuel1 i s = rangeStringFrom fuel2 i s := by
  intro n
  induction n with
  | zero =>
    intro s hs fuel1 fuel2 i _ _
    have : s = [] := List.eq_nil_of_length_eq_zero (by omega)
    subst this
    cases fuel1 <;> cases fuel2 <;> rfl
  | succ n ih =>
    intro s hs fuel1 fuel2 i h1 h2
    cases s with
    | nil => cases fuel1 <;> cases fuel2 <;> rfl
    | cons b rest =>
      cases fuel1 with
      | zero => simp at h1
      | succ fuel1 =>
        cases fuel2 with
        | zero => simp at h2
        | succ fuel2 =>
          have hw := (decodeRune_width (b :: rest)).1
          have hl : ((b :: rest).drop (decodeRune (b :: rest)).2).length ≤ rest.length := by
            rw [List.length_drop, List.length_cons]; omega
          simp only [List.length_cons] at hs h1 h2
          simp only [rangeStringFrom]
          rw [ih _ (by omega) fuel1 fuel2 _ (by omega) (by omega)]

theorem rangeStringFrom_ascii (s : List Nat) (h : ∀ b ∈ s, b < 128) :
    ∀ (fuel i : Nat), s.length ≤ fuel → rangeStringFrom fuel i s = List.enumFrom i s := by
  induction s with
  | nil => intro fuel i _; cases fuel <;> rfl
  | cons b rest ih =>
    intro fuel i hf
    have hb : b < 128 := h b (List.mem_cons_self _ _)
    cases fuel with
    | zero => simp at hf
    | succ fuel =>
      have hd : decodeRune (b :: rest) = (b, 1) := by
        simp only [decodeRune, if_pos hb]
      simp only [rangeStringFrom, hd, List.drop_succ_cons, List.drop_zero, List.enumFrom_cons]
      rw [ih (fun x hx => h x (List.mem_cons_of_mem _ hx)) fuel (i + 1)
        (by simpa using hf)]

theorem not_base_iff (r : Nat) : (r ≠ 65 ∧ r ≠ 67 ∧ r ≠ 71 ∧ r ≠ 84) ↔ isBase r = false := by
  simp [isBase, and_assoc]

theorem sliceStr_mid (pre cur rest : List Nat) :
    sliceStr (pre ++ cur ++ rest) (pre.length : Int) ((pre.length + cur.length : Nat) : Int)
      = some cur := by
  unfold sliceStr
  have h1 : ((pre.length : Nat) : Int).toNat = pre.length := by omega
  have h2 : ((pre.length + cur.length : Nat) : Int).toNat = pre.length + cur.length := by omega
  rw [if_pos (by simp only [List.length_append]; omega), h1, h2]
  simp

theorem splitLoop_ascii (k : Nat) (line : List Nat) :
    ∀ (rest pre cur : List Nat), line = pre ++ cur ++ rest → (∀ b ∈ cur, isBase b = true) →
      splitLoop (k : Int) line (List.enumFrom (pre.length + cur.length) rest) (pre.length : Int)
        = some (((cur ++ rest).splitOnP (fun b => !isBase b)).filter
            (fun run => decide (k ≤ run.length))) := by
  intro rest
  induction rest with
  | nil =>
    intro pre cur hline hcur
    have hlen : line.length = pre.length + cur.length := by rw [hline]; simp
    have hsl : sliceStr line (pre.length : Int) (line.length : Int) = some cur := by
      rw [hlen, hline]
      exact sliceStr_mid pre cur []
    rw [List.append_nil, List.splitOnP_eq_single _ _ (by simpa using hcur)]
    simp only [List.enumFrom_nil, splitLoop, hsl]
    by_cases hc : k ≤ cur.length
    · rw [if_pos (by omega)]; simp [hc]
    · rw [if_neg (by omega)]; simp [hc]
  | cons b rest ih =>
    intro pre cur hline hcur
    simp only [List.enumFrom_cons, splitLoop]
    by_cases hb : isBase b = true
    · rw [if_neg (by rw [not_base_iff]; simp [hb])]
      have h1 := ih pre (cur ++ [b]) (by rw [hline]; simp) (by
        intro x hx
        rcases List.mem_append.mp hx with h | h
        · exact hcur x h
        · simp at h; rw [h]; exact hb)
      simp only [List.length_append, List.length_cons, List.length_nil, List.append_assoc,
        List.singleton_append, zero_add, ← Nat.add_assoc] at h1
      exact h1
    · have hb2 : isBase b = false := by simpa using hb
      rw [if_pos ((not_base_iff b).mpr hb2)]
      rw [List.splitOnP_first _ _ (by simpa using hcur) b (by simp [hb2])]
      have h1 := ih (pre ++ cur ++ [b]) [] (by rw [hline]; simp) (by simp)
      simp only [List.length_append, List.length_cons, List.length_nil, zero_add, add_zero,
        List.nil_append, Nat.cast_add, Nat.cast_one] at h1
      have hsl : sliceStr line (pre.length : Int) ((pre.length + cur.length : Nat) : Int)
          = some cur := by
        rw [hline]; exact sliceStr_mid pre cur (b :: rest)
      simp only [Nat.cast_add] at hsl ⊢
      rw [h1]
      by_cases hc : k ≤ cur.length
      · rw [if_pos (by omega), hsl]; simp [hc]
      · rw [if_neg (by omega)]; simp [hc]

theorem longRuns_eq (k : Nat) (hk : 1 ≤ k) (line : List Nat) :
    longRuns k line = (line.splitOnP (fun b => !isBase b)).filter
      (fun run => decide (k ≤ run.length)) := by
  unfold longRuns maximalRuns
  rw [List.filter_filter]
  apply List.filter_congr
  intro run _
  cases run with
  | nil => simp; omega
  | cons x xs => simp

/-- C3. For minLength k ≥ 1 and a line of single-byte characters, the strings splitNs sends
for the line are, in left-to-right order, exactly the maximal runs of A, C, G, T of length at
least k. -/
theorem splitNs_sends_long_runs (k : Nat) (line : List Nat) (hk : 1 ≤ k)
    (hline : ∀ b ∈ line, b < 128) :
    splitLine (k : Int) line = some (longRuns k line) := by
  unfold splitLine rangeString
  rw [rangeStringFrom_ascii line hline _ 0 (le_refl _), longRuns_eq k hk]
  have h := splitLoop_ascii k line line [] [] (by simp) (by simp)
  simpa using h

theorem splitNs_sends_long_runs_witness :
    (1 ≤ 3 ∧ ∀ b ∈ ascii "NNACGNACNACGTN", b < 128) ∧
    splitLine ((3 : Nat) : Int) (ascii "NNACGNACNACGTN") = some (longRuns 3 (ascii "NNACGNACNACGTN")) :=
  ⟨by decide, splitNs_sends_long_runs 3 (ascii "NNACGNACNACGTN") (by decide) (by decide)⟩

/-- C4. On the line "éAC" (bytes 195 169 65 67) with minLength 3, splitNs sends the single
string with bytes 169 65 67: its first byte is the second byte of the two-byte character, not
one of A, C, G, T, and the only run of bases in the line, "AC", is shorter than 3. -/
theorem splitNs_multibyte_sends_non_base :
    splitLine 3 [195, 169, 65, 67] = some [[169, 65, 67]] ∧ isBase 169 = false ∧
      longRuns 3 [195, 169, 65, 67] = [] := by
  decide

theorem lookup_countOne (filter filterMask : Nat) (m : CountMap) (x c : Nat) :
    (countOne filter filterMask m x).lookup c =
      if x = c ∧ (x &&& filterMask) = filter then some ((m.lookup c).getD 0 + 1)
      else m.lookup c := by
  unfold countOne
  by_cases hf : (x &&& filterMask) = filter
  · rw [if_neg (by simpa using hf)]
    by_cases hx : x = c
    · subst hx
      rw [if_pos ⟨rfl, hf⟩]
      cases hl : m.lookup x with
      | none => simp
      | some v => simp
    · rw [if_neg (by tauto)]
      cases hl : m.lookup x with
      | none => simp only []; rw [AList.lookup_insert_ne (Ne.symm hx)]
      | some v => simp only []; rw [AList.lookup_insert_ne (Ne.symm hx)]
  · rw [if_pos hf, if_neg (by tauto)]

theorem lookup_foldl_countOne (filter filterMask : Nat) (l : List Nat) :
    ∀ (m : CountMap) (c : Nat), (l.foldl (countOne filter filterMask) m).lookup c =
      if c ∈ l ∧ (c &&& filterMask) = filter then some ((m.lookup c).getD 0 + (l.count c : Int))
      else m.lookup c := by
  induction l with
  | nil => intro m c; simp
  | cons x l ih =>
    intro m c
    rw [List.foldl_cons, ih, lookup_countOne]
    by_cases hx : x = c
    · subst hx
      by_cases hf : (x &&& filterMask) = filter
      · simp only [hf, and_self, if_true, List.mem_cons, true_or, and_true, Option.getD_some,
          List.count_cons_self]
        by_cases hm : x ∈ l
        · rw [if_pos hm]; congr 1; push_cast; ring
        · rw [if_neg hm, List.count_eq_zero_of_not_mem hm]; simp
      · simp [hf]
    · have hc : List.count c (x :: l) = List.count c l := by
        rw [List.count_cons_of_ne (Ne.symm hx)]
      simp only [hx, false_and, if_false, List.mem_cons, hc]
      have : (c = x ∨ c ∈ l) ↔ c ∈ l := by
        constructor
        · rintro (h | h)
          · exact absurd h.symm hx
          · exact h
        · exact Or.inr
      simp only [this]

theorem lookup_countKmers (filter filterMask : Nat) (batches : List (List Nat)) (c : Nat) :
    (countKmers filter filterMask ∅ batches).lookup c =
      if c ∈ batches.flatten ∧ (c &&& filterMask) = filter then
        some (batches.flatten.count c : Int)
      else none := by
  unfold countKmers
  rw [← List.foldl_flatten, lookup_foldl_countOne]
  simp

/-- C6. Started on an empty map, countKmers ends with a map whose keys are exactly the codes
of the batches with `c & filterMask = filter`, each mapped to its number of occurrences in the
concatenated batches, so every stored value is at least 1. -/
theorem countKmers_counts_filtered_codes (filter filterMask : Nat) (batches : List (List Nat)) :
    (∀ c, c ∈ (countKmers filter filterMask ∅ batches).keys ↔
      (c ∈ batches.flatten ∧ (c &&& filterMask) = filter)) ∧
    (∀ c, c ∈ (countKmers filter filterMask ∅ batches).keys →
      (countKmers filter filterMask ∅ batches).lookup c = some (batches.flatten.count c : Int)) ∧
    (∀ c v, (countKmers filter filterMask ∅ batches).lookup c = some v → 1 ≤ v) := by
  have hkey : ∀ c, c ∈ (countKmers filter filterMask ∅ batches).keys ↔
      (c ∈ batches.flatten ∧ (c &&& filterMask) = filter) := by
    intro c
    rw [← AList.mem_keys, ← AList.lookup_isSome, lookup_countKmers]
    by_cases h : (c ∈ batches.flatten ∧ (c &&& filterMask) = filter)
    · rw [if_pos h]
      exact ⟨fun _ => h, fun _ => rfl⟩
    · rw [if_neg h]
      exact ⟨fun hh => absurd hh (by simp), fun hh => absurd hh h⟩
  refine ⟨hkey, ?_, ?_⟩
  · intro c hc
    rw [lookup_countKmers, if_pos ((hkey c).mp hc)]
  · intro c v hv
    rw [lookup_countKmers] at hv
    split at hv
    · rename_i h
      have h1 : 0 < batches.flatten.count c := List.count_pos_iff.mpr h.1
      simp only [Option.some.injEq] at hv
      omega
    · simp at hv

theorem sum_kerase (a : Nat) (l : List (Sigma fun _ : Nat => Int)) :
    ((List.kerase a l).map (fun e => e.2)).sum + (List.dlookup a l).getD 0
      = (l.map (fun e => e.2)).sum := by
  induction l with
  | nil => simp
  | cons s l ih =>
    obtain ⟨k, v⟩ := s
    by_cases h : a = k
    · subst h
      have hk : List.kerase a ((⟨a, v⟩ : Sigma fun _ : Nat => Int) :: l) = l :=
        List.kerase_cons_eq rfl
      rw [hk, List.dlookup_cons_eq]
      simp [add_comm]
    · rw [List.kerase_cons_ne h, List.dlookup_cons_ne _ _ h]
      simp only [List.map_cons, List.sum_cons]
      rw [add_assoc, ih]

theorem storedTotal_insert (m : CountMap) (x : Nat) (v : Int) :
    storedTotal (m.insert x v) + (m.lookup x).getD 0 = storedTotal m + v := by
  unfold storedTotal
  rw [AList.insert_entries]
  simp only [List.map_cons, List.sum_cons]
  have h := sum_kerase x m.entries
  have hl : m.lookup x = List.dlookup x m.entries := rfl
  rw [hl]
  omega

theorem storedTotal_countOne (filter filterMask : Nat) (m : CountMap) (x : Nat) :
    storedTotal (countOne filter filterMask m x)
      = storedTotal m + if (x &&& filterMask) = filter then 1 else 0 := by
  unfold countOne
  by_cases hf : (x &&& filterMask) = filter
  · rw [if_neg (by simpa using hf), if_pos hf]
    cases hl : m.lookup x with
    | none =>
      have h := storedTotal_insert m x 1
      rw [hl] at h
      simp only [Option.getD_none] at h
      simp only []
      omega
    | some v =>
      have h := storedTotal_insert m x (v + 1)
      rw [hl] at h
      simp only [Option.getD_some] at h
      simp only []
      omega
  · rw [if_pos hf, if_neg hf]; simp

theorem storedTotal_foldl (filter filterMask : Nat) (l : List Nat) :
    ∀ m : CountMap, storedTotal (l.foldl (countOne filter filterMask) m)
      = storedTotal m + (l.countP (fun x => decide ((x &&& filterMask) = filter)) : Nat) := by
  induction l with
  | nil => intro m; simp
  | cons x l ih =>
    intro m
    rw [List.foldl_cons, ih, storedTotal_countOne, List.countP_cons]
    by_cases hf : (x &&& filterMask) = filter
    · simp [hf]; ring
    · simp [hf]

theorem storedTotal_countKmers (filter filterMask : Nat) (batches : List (List Nat)) :
    storedTotal (countKmers filter filterMask ∅ batches)
      = (batches.flatten.countP (fun x => decide ((x &&& filterMask) = filter)) : Nat) := by
  unfold countKmers
  rw [← List.foldl_flatten, storedTotal_foldl]
  simp [storedTotal]

theorem toUint_mask (p : Nat) (hp : p < 63) : toUint (((2 ^ p : Nat) : Int) - 1) = 2 ^ p - 1 := by
  unfold toUint
  have h1 : (2 : Nat) ^ p < 2 ^ 63 := Nat.pow_lt_pow_right (by decide) hp
  have h2 : 0 < (2 : Nat) ^ p := Nat.pow_pos (by decide)
  have h3 : (((2 ^ p : Nat) : Int) - 1) % 2 ^ 64 = ((2 ^ p : Nat) : Int) - 1 := by
    apply Int.emod_eq_of_lt <;> omega
  rw [h3]
  omega

theorem toUint_index (p i : Nat) (hp : p < 63) (hi : i < 2 ^ p) : toUint (i : Int) = i := by
  unfold toUint
  have h1 : (2 : Nat) ^ p < 2 ^ 63 := Nat.pow_lt_pow_right (by decide) hp
  have h3 : (i : Int) % 2 ^ 64 = (i : Int) := by
    apply Int.emod_eq_of_lt <;> omega
  rw [h3]
  omega

theorem sum_indicator (x : Nat) (f : Nat → Nat → Bool) (hf : ∀ i, f i x = decide (x = i)) :
    ∀ n, ((List.range n).map (fun i => if f i x = true then 1 else 0)).sum
      = if x < n then 1 else 0 := by
  intro n
  induction n with
  | zero => simp
  | succ n ih =>
    rw [List.range_succ, List.map_append, List.sum_append, ih]
    simp only [List.map_cons, List.map_nil, List.sum_cons, List.sum_nil, hf, decide_eq_true_eq]
    by_cases h1 : x < n
    · rw [if_pos h1, if_neg (by omega), if_pos (by omega)]
      rfl
    · by_cases h2 : x = n
      · rw [if_neg h1, if_pos h2, if_pos (by omega)]
        rfl
      · rw [if_neg h1, if_neg h2, if_neg (by omega)]
        rfl

theorem sum_countP_shards (n : Nat) (hn : 0 < n) (l : List Nat) :
    ((List.range n).map (fun i => l.countP (fun x => decide (x % n = i)))).sum = l.length := by
  induction l with
  | nil => simp
  | cons x l ih =>
    simp only [List.countP_cons, List.length_cons]
    rw [List.sum_map_add, ih]
    congr 1
    have h := sum_indicator (x % n) (fun i y => decide (y = i)) (fun i => rfl) n
    rw [if_pos (Nat.mod_lt _ hn)] at h
    exact h

theorem shardCounts_getElem (p : Nat) (hp : p < 63) (batches : List (List Nat)) (i : Nat)
    (m : CountMap) (h : (shardCounts (2 ^ p) batches)[i]? = some m) :
    i < 2 ^ p ∧ m = countKmers i (2 ^ p - 1) ∅ batches := by
  unfold shardCounts at h
  rw [List.getElem?_map] at h
  by_cases hi : i < 2 ^ p
  · rw [List.getElem?_range hi] at h
    simp only [Option.map_some', Option.some.injEq] at h
    rw [toUint_mask p hp, toUint_index p i hp hi] at h
    exact ⟨hi, h.symm⟩
  · rw [List.getElem?_eq_none (by simpa using hi)] at h
    simp at h

theorem mem_keys_shard (p i : Nat) (batches : List (List Nat)) (c : Nat) :
    c ∈ (countKmers i (2 ^ p - 1) ∅ batches).keys ↔ (c ∈ batches.flatten ∧ c % 2 ^ p = i) := by
  rw [← AList.mem_keys, ← AList.lookup_isSome, lookup_countKmers, Nat.and_pow_two_sub_one_eq_mod]
  by_cases h : (c ∈ batches.flatten ∧ c % 2 ^ p = i)
  · rw [if_pos h]
    exact ⟨fun _ => h, fun _ => rfl⟩
  · rw [if_neg h]
    exact ⟨fun hh => absurd hh (by simp), fun hh => absurd hh h⟩

/-- C7. For N = 2^p shards (N a Go int, so p < 63) fed the same batches, every key of map i
has `key & (N-1) = i`, no code is a key of two maps, each code of the batches is a key of
exactly the map with index `c & (N-1)`, and the counts stored over all maps sum to the total
number of codes in the batches. -/
theorem shards_partition_codes (N p : Nat) (batches : List (List Nat)) (hN : N = 2 ^ p)
    (hp : p < 63) :
    (∀ i m, (shardCounts N batches)[i]? = some m → ∀ c ∈ m.keys, c &&& (N - 1) = i) ∧
    (∀ (i j : Nat) (mi mj : CountMap) (c : Nat), (shardCounts N batches)[i]? = some mi →
      (shardCounts N batches)[j]? = some mj → c ∈ mi.keys → c ∈ mj.keys → i = j) ∧
    (∀ c ∈ batches.flatten,
      (∃ m, (shardCounts N batches)[c &&& (N - 1)]? = some m ∧ c ∈ m.keys) ∧
      ∀ i m, (shardCounts N batches)[i]? = some m → c ∈ m.keys → i = c &&& (N - 1)) ∧
    ((shardCounts N batches).map storedTotal).sum = (batches.flatten.length : Int) := by
  subst hN
  have hpos : 0 < 2 ^ p := Nat.pow_pos (by decide)
  refine ⟨?_, ?_, ?_, ?_⟩
  · intro i m hm c hc
    obtain ⟨_, rfl⟩ := shardCounts_getElem p hp batches i m hm
    rw [Nat.and_pow_two_sub_one_eq_mod]
    exact ((mem_keys_shard p i batches c).mp hc).2
  · intro i j mi mj c hi hj hci hcj
    obtain ⟨_, rfl⟩ := shardCounts_getElem p hp batches i mi hi
    obtain ⟨_, rfl⟩ := shardCounts_getElem p hp batches j mj hj
    rw [← ((mem_keys_shard p i batches c).mp hci).2, ← ((mem_keys_shard p j batches c).mp hcj).2]
  · intro c hc
    rw [Nat.and_pow_two_sub_one_eq_mod]
    constructor
    · have hlt : c % 2 ^ p < 2 ^ p := Nat.mod_lt _ hpos
      refine ⟨countKmers (c % 2 ^ p) (2 ^ p - 1) ∅ batches, ?_, ?_⟩
      · unfold shardCounts
        rw [List.getElem?_map, List.getElem?_range hlt]
        simp only [Option.map_some']
        rw [toUint_mask p hp, toUint_index p _ hp hlt]
      · exact (mem_keys_shard p _ batches c).mpr ⟨hc, rfl⟩
    · intro i m hm hcm
      obtain ⟨_, rfl⟩ := shardCounts_getElem p hp batches i m hm
      exact ((mem_keys_shard p i batches c).mp hcm).2.symm
  · have hmap : (shardCounts (2 ^ p) batches).map storedTotal
        = (List.range (2 ^ p)).map (fun i =>
            ((batches.flatten.countP (fun x => decide (x % 2 ^ p = i)) : Nat) : Int)) := by
      unfold shardCounts
      rw [List.map_map]
      apply List.map_congr_left
      intro i hi
      have hi2 : i < 2 ^ p := List.mem_range.mp hi
      simp only [Function.comp]
      rw [toUint_mask p hp, toUint_index p i hp hi2, storedTotal_countKmers]
      simp only [Nat.and_pow_two_sub_one_eq_mod]
    rw [hmap]
    have h := sum_countP_shards (2 ^ p) hpos batches.flatten
    rw [← h, Nat.cast_list_sum, List.map_map]
    rfl

theorem shards_partition_codes_witness :
    (4 = 2 ^ 2 ∧ 2 < 63) ∧
    ((∀ i m, (shardCounts 4 [[1, 2, 5, 5], [9, 1]])[i]? = some m → ∀ c ∈ m.keys, c &&& (4 - 1) = i) ∧
    (∀ (i j : Nat) (mi mj : CountMap) (c : Nat), (shardCounts 4 [[1, 2, 5, 5], [9, 1]])[i]? = some mi →
      (shardCounts 4 [[1, 2, 5, 5], [9, 1]])[j]? = some mj → c ∈ mi.keys → c ∈ mj.keys → i = j) ∧
    (∀ c ∈ [[1, 2, 5, 5], [9, 1]].flatten,
      (∃ m, (shardCounts 4 [[1, 2, 5, 5], [9, 1]])[c &&& (4 - 1)]? = some m ∧ c ∈ m.keys) ∧
      ∀ i m, (shardCounts 4 [[1, 2, 5, 5], [9, 1]])[i]? = some m → c ∈ m.keys → i = c &&& (4 - 1)) ∧
    ((shardCounts 4 [[1, 2, 5, 5], [9, 1]]).map storedTotal).sum
      = (([[1, 2, 5, 5], [9, 1]] : List (List Nat)).flatten.length : Int)) :=
  ⟨by decide, shards_partition_codes 4 2 [[1, 2, 5, 5], [9, 1]] (by decide) (by decide)⟩

theorem sum_set_incr (h : List Int) : ∀ i, i < h.length →
    (h.set i (h.getD i 0 + 1)).sum = h.sum + 1 := by
  induction h with
  | nil => intro i hi; simp at hi
  | cons x t ih =>
    intro i hi
    cases i with
    | zero => simp; ring
    | succ i =>
      have := ih i (by simpa using hi)
      simp only [List.set_cons_succ, List.sum_cons, List.getD_cons_succ, this]
      ring

theorem getD_set_incr (h : List Int) (i c : Nat) (hi : i < h.length) :
    (h.set i (h.getD i 0 + 1)).getD c 0 = h.getD c 0 + if i = c then 1 else 0 := by
  simp only [List.getD_eq_getElem?_getD, List.getElem?_set]
  by_cases hc : i = c
  · subst hc
    simp [hi]
  · simp [hc]

theorem histAdd_spec (hist : List Int) (v : Int) (hlen : hist.length = 256) (hv : 0 ≤ v) :
    ∃ h1, histAdd hist v = some h1 ∧ h1.length = 256 ∧ h1.sum = hist.sum + 1 ∧
      ∀ c : Nat, h1.getD c 0 = hist.getD c 0 + if bucketOf v = (c : Int) then 1 else 0 := by
  have hb : 0 ≤ bucketOf v ∧ bucketOf v < 256 := by
    unfold bucketOf; split <;> omega
  have hi : (bucketOf v).toNat < hist.length := by omega
  refine ⟨hist.set (bucketOf v).toNat (hist.getD (bucketOf v).toNat 0 + 1), ?_, ?_, ?_, ?_⟩
  · unfold histAdd
    rw [if_pos (by rw [hlen]; exact hb)]
    rfl
  · simp [hlen]
  · exact sum_set_incr hist _ hi
  · intro c
    rw [getD_set_incr hist _ c hi]
    congr 1
    by_cases hc : bucketOf v = (c : Int)
    · rw [if_pos hc, if_pos (by omega)]
    · rw [if_neg hc, if_neg (by omega)]

theorem histMap_spec (es : List (Sigma fun _ : Nat => Int)) :
    ∀ hist : List Int, hist.length = 256 → (∀ e ∈ es, 0 ≤ e.2) →
      ∃ h1, histMap hist es = some h1 ∧ h1.length = 256 ∧ h1.sum = hist.sum + (es.length : Int) ∧
        ∀ c : Nat, h1.getD c 0
          = hist.getD c 0 + (es.countP (fun e => decide (bucketOf e.2 = (c : Int))) : Nat) := by
  induction es with
  | nil => intro hist hlen _; exact ⟨hist, rfl, hlen, by simp, by simp⟩
  | cons e es ih =>
    intro hist hlen hpos
    obtain ⟨h1, e1, l1, s1, g1⟩ := histAdd_spec hist e.2 hlen (hpos e (List.mem_cons_self _ _))
    obtain ⟨h2, e2, l2, s2, g2⟩ := ih h1 l1 (fun x hx => hpos x (List.mem_cons_of_mem _ hx))
    refine ⟨h2, ?_, l2, ?_, ?_⟩
    · simp only [histMap, e1]; exact e2
    · rw [s2, s1]; simp only [List.length_cons]; push_cast; ring
    · intro c
      rw [g2, g1, List.countP_cons]
      by_cases hc : bucketOf e.2 = (c : Int)
      · simp [hc]; ring
      · simp [hc]

theorem histAll_spec (counts : List CountMap) :
    ∀ hist : List Int, hist.length = 256 → (∀ m ∈ counts, ∀ e ∈ m.entries, 0 ≤ e.2) →
      ∃ h1, histAll hist counts = some h1 ∧ h1.length = 256 ∧
        h1.sum = hist.sum + ((counts.map (fun m => m.entries.length)).sum : Nat) ∧
        ∀ c : Nat, h1.getD c 0 = hist.getD c 0 +
          ((counts.map (fun m =>
            m.entries.countP (fun e => decide (bucketOf e.2 = (c : Int))))).sum : Nat) := by
  induction counts with
  | nil => intro hist hlen _; exact ⟨hist, rfl, hlen, by simp, by simp⟩
  | cons m rest ih =>
    intro hist hlen hpos
    obtain ⟨h1, e1, l1, s1, g1⟩ := histMap_spec m.entries hist hlen (hpos m (List.mem_cons_self _ _))
    obtain ⟨h2, e2, l2, s2, g2⟩ := ih h1 l1 (fun x hx => hpos x (List.mem_cons_of_mem _ hx))
    refine ⟨h2, ?_, l2, ?_, ?_⟩
    · simp only [histAll, e1]; exact e2
    · rw [s2, s1]; simp only [List.map_cons, List.sum_cons]; push_cast; ring
    · intro c
      rw [g2, g1]; simp only [List.map_cons, List.sum_cons]; push_cast; ring

theorem countP_entries_eq_keys (m : CountMap) (P : Int → Bool) :
    m.entries.countP (fun e => P e.2) = m.keys.countP (fun key =>
      match m.lookup key with
      | some v => P v
      | none => false) := by
  have hk : m.keys = m.entries.map Sigma.fst := rfl
  rw [hk, List.countP_map]
  apply List.countP_congr
  intro e he
  have hl : m.lookup e.1 = some e.2 := by
    have := (AList.mem_lookup_iff (a := e.1) (b := e.2) (s := m)).mpr he
    simpa using this
  simp only [Function.comp, hl]

theorem entries_length_sum (counts : List CountMap) :
    (counts.map (fun m => m.entries.length)).sum = keyCount counts := by
  unfold keyCount
  congr 1
  apply List.map_congr_left
  intro m _
  have hk : m.keys = m.entries.map Sigma.fst := rfl
  rw [hk, List.length_map]

theorem buildHist_spec (counts : List CountMap)
    (hpos : ∀ m ∈ counts, ∀ e ∈ m.entries, 1 ≤ e.2) :
    ∃ hist, buildHist counts = some hist ∧ hist.length = 256 ∧
      hist.sum = (keyCount counts : Int) ∧
      ∀ c : Nat, hist.getD c 0 = (pairCount counts (fun v => decide (bucketOf v = (c : Int))) : Int) := by
  obtain ⟨h1, e1, l1, s1, g1⟩ := histAll_spec counts (List.replicate 256 0)
    (List.length_replicate _ _) (fun m hm e he => by have := hpos m hm e he; omega)
  refine ⟨h1, e1, l1, ?_, ?_⟩
  · rw [s1]
    have : (List.replicate 256 (0 : Int)).sum = 0 := by
      rw [List.sum_replicate, smul_zero]
    rw [this, zero_add, entries_length_sum]
  · intro c
    rw [g1]
    have hz : (List.replicate 256 (0 : Int)).getD c 0 = 0 := by
      rw [List.getD_eq_getElem?_getD, List.getElem?_replicate]
      split <;> rfl
    rw [hz, zero_add]
    unfold pairCount
    congr 2
    apply List.map_congr_left
    intro m _
    exact countP_entries_eq_keys m (fun v => decide (bucketOf v = (c : Int)))

theorem pairCount_false (counts : List CountMap) : pairCount counts (fun _ => false) = 0 := by
  unfold pairCount
  have h : ∀ m : CountMap, m.keys.countP (fun key =>
      match m.lookup key with
      | some _ => false
      | none => false) = 0 := by
    intro m
    rw [← countP_entries_eq_keys m (fun _ => false)]
    simp
  simp only [h]
  simp

theorem pairCount_congr (counts : List CountMap) (P Q : Int → Bool)
    (hpos : ∀ m ∈ counts, ∀ e ∈ m.entries, 1 ≤ e.2) (h : ∀ v : Int, 1 ≤ v → P v = Q v) :
    pairCount counts P = pairCount counts Q := by
  unfold pairCount
  congr 1
  apply List.map_congr_left
  intro m hm
  rw [← countP_entries_eq_keys, ← countP_entries_eq_keys]
  apply List.countP_congr
  intro e he
  rw [h e.2 (hpos m hm e he)]

/-- C8. For count maps whose values are all at least 1, the 256-entry array printHist builds
has at each index c in 1..254 the number of (map, key) pairs with count exactly c, at index 255
the number of pairs with count at least 255 and at index 0 the value 0; hence the entries
1..255 sum to the total number of keys over all maps. -/
theorem printHist_buckets (counts : List CountMap)
    (hpos : ∀ m ∈ counts, ∀ e ∈ m.entries, 1 ≤ e.2) :
    ∃ hist, buildHist counts = some hist ∧ hist.length = 256 ∧
      (∀ c : Nat, 1 ≤ c → c ≤ 254 →
        hist[c]? = some (pairCount counts (fun v => decide (v = (c : Int))) : Int)) ∧
      hist[255]? = some (pairCount counts (fun v => decide (255 ≤ v)) : Int) ∧
      hist[0]? = some 0 ∧
      (hist.drop 1).sum = (keyCount counts : Int) := by
  obtain ⟨hist, hb, hlen, hsum, hget⟩ := buildHist_spec counts hpos
  have hidx : ∀ c : Nat, c < 256 → hist[c]? = some (hist.getD c 0) := by
    intro c hc
    rw [List.getD_eq_getElem?_getD, List.getElem?_eq_getElem (by omega)]
    rfl
  have h0 : hist.getD 0 0 = 0 := by
    rw [hget 0, pairCount_congr counts _ (fun _ => false) hpos (by
      intro v hv
      unfold bucketOf
      split <;> (simp; try omega)), pairCount_false]
    rfl
  refine ⟨hist, hb, hlen, ?_, ?_, ?_, ?_⟩
  · intro c hc1 hc2
    rw [hidx c (by omega), hget c, pairCount_congr counts _ _ hpos]
    intro v _
    unfold bucketOf
    split <;> (simp; try omega)
  · rw [hidx 255 (by omega), hget 255, pairCount_congr counts _ _ hpos]
    intro v _
    unfold bucketOf
    split <;> (simp; try omega)
  · rw [hidx 0 (by omega), h0]
  · cases hist with
    | nil => simp at hlen
    | cons x t =>
      simp only [List.getD_cons_zero] at h0
      simp only [List.drop_succ_cons, List.drop_zero]
      rw [← hsum, List.sum_cons, h0, zero_add]

theorem printHist_buckets_witness :
    (∀ m ∈ [((∅ : CountMap).insert 7 2).insert 9 300, (∅ : CountMap).insert 4 2],
      ∀ e ∈ m.entries, 1 ≤ e.2) ∧
    ∃ hist, buildHist [((∅ : CountMap).insert 7 2).insert 9 300, (∅ : CountMap).insert 4 2]
        = some hist ∧ hist.length = 256 ∧
      (∀ c : Nat, 1 ≤ c → c ≤ 254 →
        hist[c]? = some (pairCount [((∅ : CountMap).insert 7 2).insert 9 300,
          (∅ : CountMap).insert 4 2] (fun v => decide (v = (c : Int))) : Int)) ∧
      hist[255]? = some (pairCount [((∅ : CountMap).insert 7 2).insert 9 300,
          (∅ : CountMap).insert 4 2] (fun v => decide (255 ≤ v)) : Int) ∧
      hist[0]? = some 0 ∧
      (hist.drop 1).sum = (keyCount [((∅ : CountMap).insert 7 2).insert 9 300,
          (∅ : CountMap).insert 4 2] : Int) :=
  ⟨by decide, printHist_buckets _ (by decide)⟩

theorem histLines_pos (l : List Int) : ∀ i : Nat, 0 < i →
    histLines i l = (List.range l.length).map
      (fun n => goPrintln [fmtInt ((i + n : Nat) : Int), "\t", fmtInt (l.getD n 0)]) := by
  induction l with
  | nil => intro i _; rfl
  | cons x t ih =>
    intro i hi
    rw [histLines, if_pos hi, ih (i + 1) (by omega), List.length_cons, List.range_succ_eq_map,
      List.map_cons, List.map_map]
    congr 1
    apply List.map_congr_left
    intro n _
    simp only [Function.comp, List.getD_cons_succ]
    congr 3
    omega

theorem histLines_zero (hist : List Int) (hlen : hist.length = 256) :
    histLines 0 hist = (List.range 255).map
      (fun n => goPrintln [fmtInt ((n + 1 : Nat) : Int), "\t", fmtInt (hist.getD (n + 1) 0)]) := by
  cases hist with
  | nil => simp at hlen
  | cons x t =>
    have ht : t.length = 255 := by simpa using hlen
    rw [histLines, if_neg (by decide), histLines_pos t 1 (by decide), ht]
    apply List.map_congr_left
    intro n _
    simp only [List.getD_cons_succ]
    congr 3
    omega

/-- C9, as the code has it. For count maps with values at least 1, printHist writes exactly
one line for every bucket 1..255, in ascending order, whether the entry of the bucket is zero
or not: line n (from 0) is bucket n+1, a tab between spaces, and the entry of the bucket. -/
theorem printHist_writes_every_bucket (counts : List CountMap)
    (hpos : ∀ m ∈ counts, ∀ e ∈ m.entries, 1 ≤ e.2) :
    ∃ hist, buildHist counts = some hist ∧
      printHist counts = some ((List.range 255).map
        (fun n => goPrintln [fmtInt ((n + 1 : Nat) : Int), "\t", fmtInt (hist.getD (n + 1) 0)])) := by
  obtain ⟨hist, hb, hlen, _, _⟩ := buildHist_spec counts hpos
  refine ⟨hist, hb, ?_⟩
  unfold printHist
  simp only [hb]
  rw [histLines_zero hist hlen]

theorem printHist_writes_every_bucket_witness :
    (∀ m ∈ [((∅ : CountMap).insert 7 2).insert 9 300], ∀ e ∈ m.entries, 1 ≤ e.2) ∧
    ∃ hist, buildHist [((∅ : CountMap).insert 7 2).insert 9 300] = some hist ∧
      printHist [((∅ : CountMap).insert 7 2).insert 9 300] = some ((List.range 255).map
        (fun n => goPrintln [fmtInt ((n + 1 : Nat) : Int), "\t", fmtInt (hist.getD (n + 1) 0)])) :=
  ⟨by decide, printHist_writes_every_bucket _ (by decide)⟩

set_option maxRecDepth 100000 in
/-- C9 fails as stated: with no k-mer counted at all (no maps, or only empty maps) printHist
still writes 255 lines, the first being bucket 1 with entry 0. -/
theorem printHist_empty_writes_255_lines :
    printHist [] ≠ some [] ∧ (printHist []).map List.length = some 255 ∧
      (printHist [(∅ : CountMap)]).map (List.take 2) = some ["1 \t 0", "2 \t 0"] := by
  decide

/-- C10. On the input "ACGT", empty line, "ACGT" the scanner yields the empty line as a token
and seqLineReader faults on `line[0]` (index out of range) instead of skipping the line. -/
theorem seqLineReader_empty_line_faults :
    scanLinesFrom (4000 * 1000) (ascii "ACGT\n\nACGT\n") [] = [ascii "ACGT", [], ascii "ACGT"] ∧
      seqLineReader (ascii "ACGT\n\nACGT\n") = none := by
  decide

theorem revcomp_window (k j : Nat) (f : List Nat) (hj : j + k ≤ f.length) :
    ((revcomp f).drop j).take k = revcomp ((f.drop (f.length - k - j)).take k) := by
  unfold revcomp
  rw [← List.map_drop, ← List.map_take]
  congr 1
  rw [List.drop_reverse, List.take_reverse, List.length_take, List.drop_take]
  congr 2
  · omega
  · congr 1
    omega

/-- C11. For 1 ≤ k ≤ 32 and a fragment f over A, C, G, T of length at least k, the batch
makeKmers builds for the reverse complement of f is the reversal of the batch for f, so the
two batches hold the same codes with the same multiplicities. -/
theorem makeKmers_revcomp_reverses_batch (k : Nat) (f : List Nat) (hk1 : 1 ≤ k) (hk2 : k ≤ 32)
    (hf : ∀ b ∈ f, isBase b = true) (hL : k ≤ f.length) :
    ∃ batch, makeKmersBatch (k : Int) f = some batch ∧
      makeKmersBatch (k : Int) (revcomp f) = some batch.reverse ∧
      batch.reverse.Perm batch := by
  have hrl : (revcomp f).length = f.length := by simp [revcomp]
  obtain ⟨b1, h1, l1, v1⟩ := makeKmersBatch_canon k hk1 hk2 f hL
  obtain ⟨b2, h2, l2, v2⟩ := makeKmersBatch_canon k hk1 hk2 (revcomp f) (by omega)
  refine ⟨b1, h1, ?_, List.reverse_perm b1⟩
  rw [h2]
  congr 1
  apply List.ext_getElem?
  intro j
  by_cases hj : j < b2.length
  · have hw : ∀ b ∈ (f.drop (f.length - k - j)).take k, isBase b = true :=
      fun b hb => hf b (List.mem_of_mem_drop (List.mem_of_mem_take hb))
    rw [List.getElem?_reverse (by omega), v2 j (by omega), v1 _ (by omega),
      revcomp_window k j f (by omega), beVal_code_eq_enc _ (revcomp_isBase _ hw),
      beVal_rc_eq_enc _ (revcomp_isBase _ hw), revcomp_revcomp _ hw,
      beVal_code_eq_enc _ (by
        intro b hb
        exact hf b (List.mem_of_mem_drop (List.mem_of_mem_take hb))),
      beVal_rc_eq_enc _ (by
        intro b hb
        exact hf b (List.mem_of_mem_drop (List.mem_of_mem_take hb))), Nat.min_comm]
    have : b1.length - 1 - j = f.length - k - j := by omega
    rw [this]
  · rw [List.getElem?_eq_none (by omega), List.getElem?_eq_none (by simp; omega)]

theorem makeKmers_revcomp_reverses_batch_witness :
    (1 ≤ 3 ∧ 3 ≤ 32 ∧ (∀ b ∈ ascii "ACGTTTGA", isBase b = true) ∧ 3 ≤ (ascii "ACGTTTGA").length) ∧
    ∃ batch, makeKmersBatch ((3 : Nat) : Int) (ascii "ACGTTTGA") = some batch ∧
      makeKmersBatch ((3 : Nat) : Int) (revcomp (ascii "ACGTTTGA")) = some batch.reverse ∧
      batch.reverse.Perm batch :=
  ⟨by decide, makeKmers_revcomp_reverses_batch 3 (ascii "ACGTTTGA") (by decide) (by decide)
    (by decide) (by decide)⟩

/-- C16. The byte-to-code expression of line 59 maps 'A' to 0, 'C' to 1, 'G' to 2 and 'T' to
3, and the codes of complementary bases are complements in the 2-bit field. -/
theorem baseCode_values :
    (ascii "ACGT").map baseCode = [0, 1, 2, 3] ∧
      baseCode 65 = 0 ∧ baseCode 67 = 1 ∧ baseCode 71 = 2 ∧ baseCode 84 = 3 ∧
      baseCode 65 ^^^ baseCode 84 = 3 ∧ baseCode 67 ^^^ baseCode 71 = 3 := by
  decide

/-- C12, as the code has it. With k = 31 and the input ">seq1" followed by
"NNNNACGTACGTACGTACGTACGTACGTACGTN": seqLineReader drops the header and forwards the second
line; its interior ACGT run has 28 characters, fewer than k, so splitNs sends no fragment and
makeKmers builds no batch. With the 32-base line of example 1 between "NNNN" and "N", splitNs
sends exactly that run and makeKmers builds the same 2-code batch as for example 1. -/
theorem example2_run_is_28_long :
    seqLineReader (ascii ">seq1\nNNNNACGTACGTACGTACGTACGTACGTACGTN")
      = some [ascii "NNNNACGTACGTACGTACGTACGTACGTACGTN"] ∧
    maximalRuns (ascii "NNNNACGTACGTACGTACGTACGTACGTACGTN")
      = [ascii "ACGTACGTACGTACGTACGTACGTACGT"] ∧
    (ascii "ACGTACGTACGTACGTACGTACGTACGT").length = 28 ∧
    splitNs 31 [ascii "NNNNACGTACGTACGTACGTACGTACGTACGTN"] = some [] ∧
    makeKmers 31 [] (List.range 16) = some [] ∧
    splitNs 31 [ascii "NNNNACGTACGTACGTACGTACGTACGTACGTACGTN"]
      = some [ascii "ACGTACGTACGTACGTACGTACGTACGTACGT"] ∧
    (makeKmersBatch 31 (ascii "ACGTACGTACGTACGTACGTACGTACGTACGT")).map List.length = some 2 := by
  decide

/-- C12 fails as stated: for the line "NNNNACGTACGTACGTACGTACGTACGTACGTN" splitNs(31) sends
nothing, not one fragment of 32 characters. -/
theorem example2_no_fragment :
    splitLine 31 (ascii "NNNNACGTACGTACGTACGTACGTACGTACGTN") = some [] ∧
      splitLine 31 (ascii "NNNNACGTACGTACGTACGTACGTACGTACGTN")
        ≠ some [ascii "ACGTACGTACGTACGTACGTACGTACGTACGT"] := by
  decide

theorem scanLinesFrom_line (capacity : Nat) (rest : List Nat) :
    ∀ (l cur : List Nat), (∀ b ∈ l, b ≠ 10) →
      scanLinesFrom capacity (l ++ 10 :: rest) cur =
        if (cur ++ l).length < capacity then dropCR (cur ++ l) :: scanLinesFrom capacity rest []
        else [] := by
  intro l
  induction l with
  | nil =>
    intro cur _
    simp [scanLinesFrom]
  | cons b l ih =>
    intro cur hl
    have hb : b ≠ 10 := hl b (List.mem_cons_self _ _)
    rw [List.cons_append, scanLinesFrom, if_neg hb,
      ih (cur ++ [b]) (fun x hx => hl x (List.mem_cons_of_mem _ hx))]
    simp

theorem seqLineReaderWith_oversized (capacity n : Nat) (hc : 4 < capacity) (hn : capacity ≤ n) :
    seqLineReaderWith capacity (ascii "ACGT" ++ 10 :: (List.replicate n 65 ++ 10 :: ascii "ACGT\n"))
      = some [ascii "ACGT"] := by
  unfold seqLineReaderWith
  have h4 : ([] ++ ascii "ACGT").length < capacity := by
    have : ([] ++ ascii "ACGT").length = 4 := by decide
    omega
  have hbig : ¬ ([] ++ List.replicate n 65).length < capacity := by
    rw [List.nil_append, List.length_replicate]
    omega
  rw [scanLinesFrom_line _ _ (ascii "ACGT") [] (by decide), if_pos h4,
    scanLinesFrom_line _ _ (List.replicate n 65) [] (by
      intro b hb
      rw [List.eq_of_mem_replicate hb]
      decide),
    if_neg hbig]
  decide

/-- C13. On an input whose second line has 4,000,000 bytes, seqLineReader forwards the first
line, stops at the oversized line and ends normally (it signals done): the result is the same
as for the input that ends after the first line, and the third line is never read. -/
theorem seqLineReader_stops_at_oversized_line :
    seqLineReader (ascii "ACGT" ++ 10 :: (List.replicate 4000000 65 ++ 10 :: ascii "ACGT\n"))
        = some [ascii "ACGT"] ∧
      seqLineReader (ascii "ACGT\n") = some [ascii "ACGT"] :=
  ⟨seqLineReaderWith_oversized (4000 * 1000) 4000000 (by decide) (by decide), by decide⟩

theorem goPrintln_three (a b c : String) : goPrintln [a, b, c] = a ++ " " ++ b ++ " " ++ c := by
  simp [goPrintln, String.intercalate, String.intercalate.go]

/-- C14, as the code has it. Every line printHist writes is the decimal bucket index, a
space, a tab, a space, and the decimal entry of that bucket: Println separates its three
operands by spaces. -/
theorem printHist_line_format (counts : List CountMap)
    (hpos : ∀ m ∈ counts, ∀ e ∈ m.entries, 1 ≤ e.2) :
    ∃ hist lines, buildHist counts = some hist ∧ printHist counts = some lines ∧
      ∀ line ∈ lines, ∃ i : Nat, 1 ≤ i ∧ i ≤ 255 ∧
        line = fmtInt (i : Int) ++ " " ++ "\t" ++ " " ++ fmtInt (hist.getD i 0) := by
  obtain ⟨hist, hb, hlen, _, _⟩ := buildHist_spec counts hpos
  refine ⟨hist, histLines 0 hist, hb, ?_, ?_⟩
  · unfold printHist
    simp only [hb]
  · intro line hline
    rw [histLines_zero hist hlen, List.mem_map] at hline
    obtain ⟨n, hn, rfl⟩ := hline
    have hn2 : n < 255 := List.mem_range.mp hn
    exact ⟨n + 1, by omega, by omega, goPrintln_three _ _ _⟩

theorem printHist_line_format_witness :
    (∀ m ∈ [((∅ : CountMap).insert 7 2).insert 9 300], ∀ e ∈ m.entries, 1 ≤ e.2) ∧
    ∃ hist lines, buildHist [((∅ : CountMap).insert 7 2).insert 9 300] = some hist ∧
      printHist [((∅ : CountMap).insert 7 2).insert 9 300] = some lines ∧
      ∀ line ∈ lines, ∃ i : Nat, 1 ≤ i ∧ i ≤ 255 ∧
        line = fmtInt (i : Int) ++ " " ++ "\t" ++ " " ++ fmtInt (hist.getD i 0) :=
  ⟨by decide, printHist_line_format _ (by decide)⟩

set_option maxRecDepth 100000 in
/-- C14 fails as stated: for one map holding one k-mer seen twice, the line of bucket 2 is
"2", space, tab, space, "1"; it is not "2", tab, "1". -/
theorem printHist_line_has_spaces :
    (printHist [(∅ : CountMap).insert 7 2]).map (fun lines => lines.getD 1 "")
        = some "2 \t 1" ∧
      "2 \t 1" ≠ "2" ++ "\t" ++ "1" := by
  decide

theorem countKmers_entries_pos (filter filterMask : Nat) (batches : List (List Nat)) :
    ∀ e ∈ (countKmers filter filterMask ∅ batches).entries, 1 ≤ e.2 := by
  intro e he
  have hl : (countKmers filter filterMask ∅ batches).lookup e.1 = some e.2 := by
    have := (AList.mem_lookup_iff (a := e.1) (b := e.2)
      (s := countKmers filter filterMask ∅ batches)).mpr he
    simpa using this
  rw [lookup_countKmers] at hl
  split at hl
  · rename_i h
    have h1 : 0 < batches.flatten.count e.1 := List.count_pos_iff.mpr h.1
    simp only [Option.some.injEq] at hl
    omega
  · simp at hl

theorem countP_keys_countKmers (filter filterMask : Nat) (batches : List (List Nat))
    (P : Int → Bool) :
    (countKmers filter filterMask ∅ batches).keys.countP (fun key =>
      match (countKmers filter filterMask ∅ batches).lookup key with
      | some v => P v
      | none => false)
    = (countKmers filter filterMask ∅ batches).keys.countP
        (fun key => P (batches.flatten.count key : Int)) := by
  apply List.countP_congr
  intro c hc
  have hm : c ∈ countKmers filter filterMask ∅ batches := AList.mem_keys.mpr hc
  have hs := AList.lookup_isSome.mpr hm
  rw [lookup_countKmers] at hs ⊢
  split at hs
  · rename_i h
    rw [if_pos h]
  · simp at hs

theorem keys_shard_perm (p i : Nat) (batches : List (List Nat)) :
    (countKmers i (2 ^ p - 1) ∅ batches).keys.Perm
      ((countKmers 0 0 ∅ batches).keys.filter (fun c => decide (c % 2 ^ p = i))) := by
  rw [List.perm_ext_iff_of_nodup (AList.keys_nodup _) ((AList.keys_nodup _).filter _)]
  intro c
  rw [mem_keys_shard, List.mem_filter, ← AList.mem_keys, ← AList.lookup_isSome,
    lookup_countKmers]
  simp only [Nat.and_zero, and_true, decide_eq_true_eq]
  by_cases h : c ∈ batches.flatten
  · simp [h]
  · simp [h]

theorem pairCount_shards (p : Nat) (hp : p < 63) (batches : List (List Nat)) (P : Int → Bool) :
    pairCount (shardCounts (2 ^ p) batches) P = pairCount [countKmers 0 0 ∅ batches] P := by
  have hpos : 0 < 2 ^ p := Nat.pow_pos (by decide)
  have hl : pairCount (shardCounts (2 ^ p) batches) P
      = ((List.range (2 ^ p)).map (fun i =>
          ((countKmers 0 0 ∅ batches).keys.filter
            (fun key => P (batches.flatten.count key : Int))).countP
              (fun c => decide (c % 2 ^ p = i)))).sum := by
    unfold pairCount shardCounts
    rw [List.map_map]
    congr 1
    apply List.map_congr_left
    intro i hi
    have hi2 : i < 2 ^ p := List.mem_range.mp hi
    simp only [Function.comp]
    rw [toUint_mask p hp, toUint_index p i hp hi2, countP_keys_countKmers,
      (keys_shard_perm p i batches).countP_eq, List.countP_filter, List.countP_filter]
    apply List.countP_congr
    intro c _
    simp [Bool.and_comm]
  rw [hl, sum_countP_shards _ hpos]
  unfold pairCount
  simp only [List.map_cons, List.map_nil, List.sum_cons, List.sum_nil, Nat.add_zero]
  rw [countP_keys_countKmers, List.countP_eq_length_filter]

theorem list_eq_of_getD (h1 h2 : List Int) (hl : h1.length = h2.length)
    (h : ∀ c : Nat, h1.getD c 0 = h2.getD c 0) : h1 = h2 := by
  apply List.ext_getElem hl
  intro c hc1 hc2
  have := h c
  rw [List.getD_eq_getElem _ _ hc1, List.getD_eq_getElem _ _ hc2] at this
  exact this

/-- C17. For N = 2^p shards (N a Go int, so p < 63) the 256-entry array printHist builds
from the N shard maps equals the one it builds from the single map of one unsharded counter
countKmers(0, 0, ...) over the same batches, and so do the lines written. -/
theorem sharding_preserves_histogram (N p : Nat) (batches : List (List Nat)) (hN : N = 2 ^ p)
    (hp : p < 63) :
    (∃ hist, buildHist (shardCounts N batches) = some hist) ∧
    buildHist (shardCounts N batches) = buildHist [countKmers 0 0 ∅ batches] ∧
    printHist (shardCounts N batches) = printHist [countKmers 0 0 ∅ batches] := by
  subst hN
  have hpos1 : ∀ m ∈ shardCounts (2 ^ p) batches, ∀ e ∈ m.entries, 1 ≤ e.2 := by
    intro m hm
    unfold shardCounts at hm
    rw [List.mem_map] at hm
    obtain ⟨i, _, rfl⟩ := hm
    exact countKmers_entries_pos _ _ batches
  have hpos2 : ∀ m ∈ [countKmers 0 0 ∅ batches], ∀ e ∈ m.entries, 1 ≤ e.2 := by
    intro m hm
    rw [List.mem_singleton] at hm
    subst hm
    exact countKmers_entries_pos _ _ batches
  obtain ⟨h1, e1, l1, _, g1⟩ := buildHist_spec _ hpos1
  obtain ⟨h2, e2, l2, _, g2⟩ := buildHist_spec _ hpos2
  have heq : h1 = h2 := by
    apply list_eq_of_getD h1 h2 (by omega)
    intro c
    rw [g1 c, g2 c, pairCount_shards p hp]
  have hb : buildHist (shardCounts (2 ^ p) batches) = buildHist [countKmers 0 0 ∅ batches] := by
    rw [e1, e2, heq]
  refine ⟨⟨h1, e1⟩, hb, ?_⟩
  unfold printHist
  rw [hb]

theorem sharding_preserves_histogram_witness :
    (4 = 2 ^ 2 ∧ 2 < 63) ∧
    ((∃ hist, buildHist (shardCounts 4 [[1, 2, 5, 5], [9, 1]]) = some hist) ∧
    buildHist (shardCounts 4 [[1, 2, 5, 5], [9, 1]])
      = buildHist [countKmers 0 0 ∅ [[1, 2, 5, 5], [9, 1]]] ∧
    printHist (shardCounts 4 [[1, 2, 5, 5], [9, 1]])
      = printHist [countKmers 0 0 ∅ [[1, 2, 5, 5], [9, 1]]]) :=
  ⟨by decide, sharding_preserves_histogram 4 2 [[1, 2, 5, 5], [9, 1]] (by decide) (by decide)⟩

/-- C18. The final map of countKmers started on an empty map does not depend on the order of
arrival: when one list of batches is a permutation of the other, or their concatenations are
permutations of each other, the two maps have the same value at every key and the same
entries. -/
theorem countKmers_order_independent (filter filterMask : Nat) (batches1 batches2 : List (List Nat))
    (h : batches1.Perm batches2 ∨ batches1.flatten.Perm batches2.flatten) :
    (∀ c, (countKmers filter filterMask ∅ batches1).lookup c
        = (countKmers filter filterMask ∅ batches2).lookup c) ∧
      (countKmers filter filterMask ∅ batches1).entries.Perm
        (countKmers filter filterMask ∅ batches2).entries := by
  have hperm : batches1.flatten.Perm batches2.flatten := by
    rcases h with h | h
    · exact h.flatten
    · exact h
  have hl : ∀ c, (countKmers filter filterMask ∅ batches1).lookup c
      = (countKmers filter filterMask ∅ batches2).lookup c := by
    intro c
    have hm : c ∈ batches1.flatten ↔ c ∈ batches2.flatten := hperm.mem_iff
    rw [lookup_countKmers, lookup_countKmers, hperm.count_eq c]
    simp only [hm]
  refine ⟨hl, ?_⟩
  apply List.lookup_ext (countKmers filter filterMask ∅ batches1).nodupKeys
    (countKmers filter filterMask ∅ batches2).nodupKeys
  intro x y
  have := hl x
  unfold AList.lookup at this
  rw [this]

theorem countKmers_order_independent_witness :
    (([[1, 2, 5, 5], [9, 1]] : List (List Nat)).Perm [[9, 1], [1, 2, 5, 5]] ∨
      ([[1, 2, 5, 5], [9, 1]] : List (List Nat)).flatten.Perm
        ([[9, 1], [1, 2, 5, 5]] : List (List Nat)).flatten) ∧
    ((∀ c, (countKmers 1 3 ∅ [[1, 2, 5, 5], [9, 1]]).lookup c
        = (countKmers 1 3 ∅ [[9, 1], [1, 2, 5, 5]]).lookup c) ∧
      (countKmers 1 3 ∅ [[1, 2, 5, 5], [9, 1]]).entries.Perm
        (countKmers 1 3 ∅ [[9, 1], [1, 2, 5, 5]]).entries) :=
  ⟨Or.inl (by decide), countKmers_order_independent 1 3 [[1, 2, 5, 5], [9, 1]]
    [[9, 1], [1, 2, 5, 5]] (Or.inl (by decide))⟩

theorem rangeStringFrom_index : ∀ (fuel i : Nat) (s : List Nat) (pr : Nat × Nat),
    pr ∈ rangeStringFrom fuel i s → i ≤ pr.1 ∧ pr.1 < i + s.length := by
  intro fuel
  induction fuel with
  | zero => intro i s pr h; simp [rangeStringFrom] at h
  | succ fuel ih =>
    intro i s pr h
    cases s with
    | nil => simp [rangeStringFrom] at h
    | cons b rest =>
      simp only [rangeStringFrom, List.mem_cons] at h
      rcases h with h | h
      · subst h
        simp
      · have hw := (decodeRune_width (b :: rest)).1
        have h2 := ih _ _ pr h
        rw [List.length_drop] at h2
        by_cases hlen : (decodeRune (b :: rest)).2 ≤ (b :: rest).length
        · omega
        · have hnil : (b :: rest).drop (decodeRune (b :: rest)).2 = [] :=
            List.drop_eq_nil_of_le (by omega)
          rw [hnil] at h
          cases fuel <;> simp [rangeStringFrom] at h

theorem sliceStr_length (line : List Nat) (lo hi : Nat) (h1 : lo ≤ hi) (h2 : hi ≤ line.length) :
    ∃ tok, sliceStr line (lo : Int) (hi : Int) = some tok ∧ tok.length = hi - lo := by
  unfold sliceStr
  rw [if_pos (by omega)]
  refine ⟨_, rfl, ?_⟩
  rw [List.length_take, List.length_drop]
  omega

theorem splitLoop_tokens (k : Nat) (line : List Nat) :
    ∀ (pairs : List (Nat × Nat)) (start : Nat), (∀ pr ∈ pairs, pr.1 < line.length) →
      start ≤ line.length →
      ∃ toks, splitLoop (k : Int) line pairs (start : Int) = some toks ∧
        ∀ tok ∈ toks, k ≤ tok.length := by
  intro pairs
  induction pairs with
  | nil =>
    intro start _ hs
    simp only [splitLoop]
    by_cases hc : (start : Int) ≤ (line.length : Int) - (k : Int)
    · obtain ⟨tok, ht, hl⟩ := sliceStr_length line start line.length hs (le_refl _)
      rw [if_pos hc, ht]
      refine ⟨[tok], rfl, ?_⟩
      intro t htm
      rw [List.mem_singleton] at htm
      subst htm
      omega
    · rw [if_neg hc]
      exact ⟨[], rfl, by simp⟩
  | cons pr more ih =>
    intro start hp hs
    obtain ⟨i, r⟩ := pr
    have hi : i < line.length := hp (i, r) (List.mem_cons_self _ _)
    have hmore : ∀ pr ∈ more, pr.1 < line.length :=
      fun pr h => hp pr (List.mem_cons_of_mem _ h)
    simp only [splitLoop]
    have hnext := ih (i + 1) hmore (by omega)
    simp only [Nat.cast_add, Nat.cast_one] at hnext
    by_cases hsep : r ≠ 65 ∧ r ≠ 67 ∧ r ≠ 71 ∧ r ≠ 84
    · rw [if_pos hsep]
      by_cases hc : (start : Int) ≤ (i : Int) - (k : Int)
      · obtain ⟨tok, ht, hl⟩ := sliceStr_length line start i (by omega) (by omega)
        obtain ⟨toks, hts, hall⟩ := hnext
        rw [if_pos hc, ht]
        simp only [hts]
        refine ⟨tok :: toks, rfl, ?_⟩
        intro t htm
        rcases List.mem_cons.mp htm with h | h
        · subst h; omega
        · exact hall t h
      · rw [if_neg hc]
        exact hnext
    · rw [if_neg hsep]
      exact ih start hmore hs

/-- For 1 ≤ k ≤ 32 and any line of bytes, splitNs does not fault and every string it sends
has at least k bytes; for each such string the allocation length len(seq)-k+1 of makeKmers is
at least 1 and makeKmers builds its batch without a fault. -/
theorem splitNs_tokens_fit_makeKmers (k : Nat) (line : List Nat) (hk1 : 1 ≤ k) (hk2 : k ≤ 32) :
    ∃ toks, splitLine (k : Int) line = some toks ∧
      ∀ tok ∈ toks, k ≤ tok.length ∧ 1 ≤ (tok.length : Int) - (k : Int) + 1 ∧
        ∃ batch, makeKmersBatch (k : Int) tok = some batch ∧
          batch.length = tok.length - k + 1 := by
  have hidx : ∀ pr ∈ rangeString line, pr.1 < line.length := by
    intro pr hpr
    have := (rangeStringFrom_index _ _ _ pr hpr).2
    omega
  obtain ⟨toks, ht, hall⟩ := splitLoop_tokens k line (rangeString line) 0 hidx (Nat.zero_le _)
  refine ⟨toks, ht, ?_⟩
  intro tok htok
  have hlen := hall tok htok
  obtain ⟨batch, hb, hl, _⟩ := makeKmersBatch_canon k hk1 hk2 tok hlen
  exact ⟨hlen, by omega, batch, hb, hl⟩

theorem splitNs_tokens_fit_makeKmers_witness :
    (1 ≤ 3 ∧ 3 ≤ 32) ∧
    ∃ toks, splitLine ((3 : Nat) : Int) [195, 169, 65, 67, 78, 65, 67, 71, 84] = some toks ∧
      ∀ tok ∈ toks, 3 ≤ tok.length ∧ 1 ≤ (tok.length : Int) - ((3 : Nat) : Int) + 1 ∧
        ∃ batch, makeKmersBatch ((3 : Nat) : Int) tok = some batch ∧
          batch.length = tok.length - 3 + 1 :=
  ⟨by decide, splitNs_tokens_fit_makeKmers 3 [195, 169, 65, 67, 78, 65, 67, 71, 84] (by decide)
    (by decide)⟩

theorem mem_keys_countKmers (filter filterMask : Nat) (batches : List (List Nat)) (c : Nat) :
    c ∈ (countKmers filter filterMask ∅ batches).keys ↔
      (c ∈ batches.flatten ∧ (c &&& filterMask) = filter) := by
  rw [← AList.mem_keys, ← AList.lookup_isSome, lookup_countKmers]
  by_cases h : (c ∈ batches.flatten ∧ (c &&& filterMask) = filter)
  · rw [if_pos h]
    exact ⟨fun _ => h, fun _ => rfl⟩
  · rw [if_neg h]
    exact ⟨fun hh => absurd hh (by simp), fun hh => absurd hh h⟩

theorem toUint_small (x : Nat) (hx : x < 2 ^ 63) : toUint (x : Int) = x := by
  unfold toUint
  have h3 : (x : Int) % 2 ^ 64 = (x : Int) := by
    apply Int.emod_eq_of_lt <;> omega
  rw [h3]
  omega

theorem toUint_pred (N : Nat) (h1 : 1 ≤ N) (h2 : N < 2 ^ 63) :
    toUint ((N : Int) - 1) = N - 1 := by
  have h := toUint_small (N - 1) (by omega)
  have hc : ((N - 1 : Nat) : Int) = (N : Int) - 1 := by omega
  rw [hc] at h
  exact h

theorem shard_keeps_iff (N i c : Nat) (batches : List (List Nat)) (h1 : 1 ≤ N)
    (h2 : N < 2 ^ 63) (hi : i < N) (hc : c ∈ batches.flatten) :
    c ∈ (countKmers (toUint (i : Int)) (toUint ((N : Int) - 1)) ∅ batches).keys ↔
      i = c &&& (N - 1) := by
  rw [mem_keys_countKmers, toUint_pred N h1 h2, toUint_small i (by omega)]
  constructor
  · intro h; exact h.2.symm
  · intro h; exact ⟨hc, h.symm⟩

theorem and_two_ne_one (c : Nat) : c &&& 2 ≠ 1 := by
  intro h
  have h0 := congrArg (fun x => Nat.testBit x 0) h
  simp [Nat.testBit_and] at h0

/-- C20, as the code has it. For every shard count N ≥ 1 (a Go int), power of two or not,
every code c of the batches is kept by exactly one of the counters countKmers(i, N-1, ...),
i < N, the one with i = c & (N-1); with N = 3 the counter 1 keeps no code at all. -/
theorem shard_filter_keeps_each_code_once (N c : Nat) (batches : List (List Nat)) (h1 : 1 ≤ N)
    (h2 : N < 2 ^ 63) (hc : c ∈ batches.flatten) :
    c &&& (N - 1) < N ∧
    (∀ i : Nat, i < N →
      (c ∈ (countKmers (toUint (i : Int)) (toUint ((N : Int) - 1)) ∅ batches).keys ↔
        i = c &&& (N - 1))) ∧
    (countKmers (toUint (1 : Int)) (toUint ((3 : Int) - 1)) ∅ batches).keys = [] := by
  refine ⟨?_, ?_, ?_⟩
  · have : c &&& (N - 1) ≤ N - 1 := Nat.and_le_right
    omega
  · intro i hi
    exact shard_keeps_iff N i c batches h1 h2 hi hc
  · apply List.eq_nil_iff_forall_not_mem.mpr
    intro x hx
    rw [mem_keys_countKmers] at hx
    have h3 : toUint ((3 : Int) - 1) = 2 := by decide
    have h4 : toUint (1 : Int) = 1 := by decide
    rw [h3, h4] at hx
    exact and_two_ne_one x hx.2

theorem shard_filter_keeps_each_code_once_witness :
    (1 ≤ 3 ∧ 3 < 2 ^ 63 ∧ 5 ∈ ([[1, 2, 5, 5], [9, 1]] : List (List Nat)).flatten) ∧
    ((5 : Nat) &&& (3 - 1) < 3 ∧
    (∀ i : Nat, i < 3 →
      (5 ∈ (countKmers (toUint (i : Int)) (toUint (((3 : Nat) : Int) - 1)) ∅
          [[1, 2, 5, 5], [9, 1]]).keys ↔ i = 5 &&& (3 - 1))) ∧
    (countKmers (toUint (1 : Int)) (toUint ((3 : Int) - 1)) ∅ [[1, 2, 5, 5], [9, 1]]).keys = []) :=
  ⟨by decide, shard_filter_keeps_each_code_once 3 5 [[1, 2, 5, 5], [9, 1]] (by decide) (by decide)
    (by decide)⟩

/-- C20 fails as stated: there is no shard count N ≥ 1 (a Go int) that is not a power of two
and code c such that c is kept by no counter or by two different counters. -/
theorem no_shard_count_loses_or_doubles :
    ¬ ∃ N c : Nat, 1 ≤ N ∧ N < 2 ^ 63 ∧ (¬ ∃ p, N = 2 ^ p) ∧
      ((∀ i : Nat, i < N →
          c ∉ (countKmers (toUint (i : Int)) (toUint ((N : Int) - 1)) ∅ [[c]]).keys) ∨
        (∃ i j : Nat, i < N ∧ j < N ∧ i ≠ j ∧
          c ∈ (countKmers (toUint (i : Int)) (toUint ((N : Int) - 1)) ∅ [[c]]).keys ∧
          c ∈ (countKmers (toUint (j : Int)) (toUint ((N : Int) - 1)) ∅ [[c]]).keys)) := by
  rintro ⟨N, c, h1, h2, _, h⟩
  have hc : c ∈ ([[c]] : List (List Nat)).flatten := by simp
  have hlt : c &&& (N - 1) < N := by
    have : c &&& (N - 1) ≤ N - 1 := Nat.and_le_right
    omega
  rcases h with h | ⟨i, j, hi, hj, hij, hci, hcj⟩
  · exact h _ hlt ((shard_keeps_iff N _ c [[c]] h1 h2 hlt hc).mpr rfl)
  · have e1 := (shard_keeps_iff N i c [[c]] h1 h2 hi hc).mp hci
    have e2 := (shard_keeps_iff N j c [[c]] h1 h2 hj hc).mp hcj
    exact hij (e1.trans e2.symm)

set_option maxRecDepth 100000 in
/-- C19. A run of bases shorter than k does yield a batch after a multi-byte character: on
the line "éAC" (bytes 195 169 65 67) with k = 3 the only run of bases is "AC", of length 2,
yet splitNs sends the 3-byte string 169 65 67 and makeKmers builds the batch [1] from it; with
k = 31 the same happens for "é" followed by a run of 30 bases. -/
theorem short_run_after_multibyte_yields_batch :
    maximalRuns [195, 169, 65, 67] = [[65, 67]] ∧
      splitNs 3 [[195, 169, 65, 67]] = some [[169, 65, 67]] ∧
      makeKmersBatch 3 [169, 65, 67] = some [1] ∧
    (maximalRuns ([195, 169] ++ ascii "ACGTACGTACGTACGTACGTACGTACGTAC")).map List.length = [30] ∧
      splitNs 31 [[195, 169] ++ ascii "ACGTACGTACGTACGTACGTACGTACGTAC"]
        = some [[169] ++ ascii "ACGTACGTACGTACGTACGTACGTACGTAC"] ∧
      makeKmersBatch 31 ([169] ++ ascii "ACGTACGTACGTACGTACGTACGTACGTAC")
        = some [122074041664254385] := by
  decide
